import Mathlib

/-!
Verification development for the artifact compression/archival pipeline of the
BuildBear CI action (`src/utilities/compressionUtils.js`, LZMA revision).

The JavaScript source is shallowly embedded as follows:

* byte buffers (`Buffer`) are `List Nat` with entries below 256;
* JavaScript strings are `List Nat` of Unicode scalar values (the strings that
  occur in this pipeline are produced by `Buffer.toString('utf8')`, which never
  yields lone surrogates, so a scalar-value sequence is a faithful model);
* `Buffer.toString('utf8')` is `utf8Decode` (UTF-8 decoding with U+FFFD
  replacement for invalid sequences, as performed by Node), and the implicit
  UTF-8 encoding done by `Buffer.from(string)` / `hash.update(string)` /
  the lzma primitive on string input is `utf8Encode`;
* the SHA-256 digest is idealized as an injective deterministic function
  (`sha256Digest`, definitionally the identity on the input byte list); every
  hash collision exhibited below arises from the code's own preprocessing of
  the hashed bytes, never from the idealization;
* the byte-level lzma compress/decompress primitive is an arbitrary `Codec`
  parameter; theorems that need it assume `Codec.RoundTrip` (decompress is a
  left inverse of compress), which is the §6 collaborator contract;
* `fs` effects are inputs: a source tree is a list of
  `(relative path, Option bytes)` pairs, `none` meaning the read fails;
* JavaScript `Map`s and plain objects are insertion-ordered association lists
  (`mapSet` / `lookupA`); the ECMAScript rule that integer-like own keys
  (array indices) of the JSON-parsed `files` object enumerate first, in
  ascending numeric order, ahead of the remaining keys in insertion order, is
  modelled by `jsEntries` at the one place it is observable to this code, the
  `Object.entries` loop of `decompressArchive`;
* the JSON + base64 serialization of the archive envelope is a bijection
  between `Archive` values and blobs, so the built artifact is modelled as the
  `Archive` value itself; the envelope compression round-trip is exactly the
  codec contract.
-/

set_option maxRecDepth 8000

namespace BBC

deriving instance DecidableEq for Except

/-- Byte sequences (Node `Buffer`), entries are meant to be below 256. -/
abbrev Bytes := List Nat

/-- JavaScript strings, as sequences of Unicode scalar values. -/
abbrev JsStr := List Nat

/-- A Unicode scalar value: below 0x110000 and not a surrogate. -/
def ValidScalar (c : Nat) : Prop := c < 0x110000 ∧ ¬(0xD800 ≤ c ∧ c ≤ 0xDFFF)

instance (c : Nat) : Decidable (ValidScalar c) := by
  unfold ValidScalar; infer_instance

/-- UTF-8 encoding of one scalar value (surrogates and out-of-range values,
which cannot occur in decoder output, encode as the replacement character,
matching what Node emits for lone surrogates). -/
def utf8EncodeChar (c : Nat) : Bytes :=
  if c < 0x80 then [c]
  else if c < 0x800 then [0xC0 + c / 64, 0x80 + c % 64]
  else if c < 0x10000 then
    if 0xD800 ≤ c ∧ c ≤ 0xDFFF then [0xEF, 0xBF, 0xBD]
    else [0xE0 + c / 4096, 0x80 + c / 64 % 64, 0x80 + c % 64]
  else if c < 0x110000 then
    [0xF0 + c / 262144, 0x80 + c / 4096 % 64, 0x80 + c / 64 % 64, 0x80 + c % 64]
  else [0xEF, 0xBF, 0xBD]

/-- UTF-8 encoding of a string. -/
def utf8Encode : JsStr → Bytes
  | [] => []
  | c :: cs => utf8EncodeChar c ++ utf8Encode cs

/-- Admissible second byte of a three-byte sequence led by `b1` (UTF-8
excludes overlong forms and surrogates at this position).  Stated as a
conjunction of implications over the three lead-byte cases so that linear
arithmetic can consume it directly. -/
def utf8Cont2Ok (b1 b2 : Nat) : Prop :=
  (b1 = 0xE0 → 0xA0 ≤ b2 ∧ b2 ≤ 0xBF) ∧
  (b1 = 0xED → 0x80 ≤ b2 ∧ b2 ≤ 0x9F) ∧
  (b1 ≠ 0xE0 → b1 ≠ 0xED → 0x80 ≤ b2 ∧ b2 ≤ 0xBF)

instance (b1 b2 : Nat) : Decidable (utf8Cont2Ok b1 b2) := by
  unfold utf8Cont2Ok; infer_instance

/-- Admissible second byte of a four-byte sequence led by `b1`. -/
def utf8Cont3Ok (b1 b2 : Nat) : Prop :=
  (b1 = 0xF0 → 0x90 ≤ b2 ∧ b2 ≤ 0xBF) ∧
  (b1 = 0xF4 → 0x80 ≤ b2 ∧ b2 ≤ 0x8F) ∧
  (b1 ≠ 0xF0 → b1 ≠ 0xF4 → 0x80 ≤ b2 ∧ b2 ≤ 0xBF)

instance (b1 b2 : Nat) : Decidable (utf8Cont3Ok b1 b2) := by
  unfold utf8Cont3Ok; infer_instance

/-- One step of UTF-8 decoding with replacement: given the first byte and the
remaining bytes, return the decoded scalar (U+FFFD on malformed input) and how
many continuation bytes were consumed. -/
def utf8DecodeStep (b1 : Nat) (rest : Bytes) : Nat × Nat :=
  if b1 < 0x80 then (b1, 0)
  else if b1 < 0xC2 then (0xFFFD, 0)
  else if b1 ≤ 0xDF then
    match rest with
    | b2 :: _ =>
      if 0x80 ≤ b2 ∧ b2 ≤ 0xBF then ((b1 - 0xC0) * 64 + (b2 - 0x80), 1)
      else (0xFFFD, 0)
    | [] => (0xFFFD, 0)
  else if b1 ≤ 0xEF then
    match rest with
    | b2 :: b3 :: _ =>
      if utf8Cont2Ok b1 b2 then
        if 0x80 ≤ b3 ∧ b3 ≤ 0xBF then
          ((b1 - 0xE0) * 4096 + (b2 - 0x80) * 64 + (b3 - 0x80), 2)
        else (0xFFFD, 1)
      else (0xFFFD, 0)
    | [b2] => if utf8Cont2Ok b1 b2 then (0xFFFD, 1) else (0xFFFD, 0)
    | [] => (0xFFFD, 0)
  else if b1 ≤ 0xF4 then
    match rest with
    | b2 :: b3 :: b4 :: _ =>
      if utf8Cont3Ok b1 b2 then
        if 0x80 ≤ b3 ∧ b3 ≤ 0xBF then
          if 0x80 ≤ b4 ∧ b4 ≤ 0xBF then
            ((b1 - 0xF0) * 262144 + (b2 - 0x80) * 4096 + (b3 - 0x80) * 64 + (b4 - 0x80), 3)
          else (0xFFFD, 2)
        else (0xFFFD, 1)
      else (0xFFFD, 0)
    | [b2, b3] =>
      if utf8Cont3Ok b1 b2 then
        if 0x80 ≤ b3 ∧ b3 ≤ 0xBF then (0xFFFD, 2) else (0xFFFD, 1)
      else (0xFFFD, 0)
    | [b2] => if utf8Cont3Ok b1 b2 then (0xFFFD, 1) else (0xFFFD, 0)
    | [] => (0xFFFD, 0)
  else (0xFFFD, 0)

/-- Fuelled decoding loop (each step consumes at least one byte, so fuel equal
to the byte count suffices; structural recursion keeps the definition
kernel-reducible). -/
def utf8DecodeAux : Nat → Bytes → JsStr
  | _, [] => []
  | 0, _ :: _ => []
  | fuel + 1, b1 :: rest =>
    let p := utf8DecodeStep b1 rest
    p.1 :: utf8DecodeAux fuel (rest.drop p.2)

/-- UTF-8 decoding with replacement: the model of `Buffer.toString('utf8')`. -/
def utf8Decode (b : Bytes) : JsStr := utf8DecodeAux b.length b

/-- Idealized SHA-256: a deterministic injective digest.  Definitionally the
identity on the digested byte list; collision resistance of the real digest
corresponds to injectivity, which the identity has.  Every hash equality or
inequality proved below is therefore a statement about the bytes the source
actually feeds into `hash.update`. -/
def sha256Digest (b : Bytes) : Bytes := b

/-- The argument of `calculateHash(content)`: a JavaScript string or a Buffer. -/
inductive JsContent where
  | str (s : JsStr)
  | buf (b : Bytes)
deriving DecidableEq

/-- `calculateHash` from the source: `hash.update(typeof content === 'string' ?
content : content.toString())`.  A Buffer is first decoded as UTF-8 with
replacement (`toString()`), and `hash.update` of a string digests its UTF-8
encoding. -/
def calculateHash : JsContent → Bytes
  | .str s => sha256Digest (utf8Encode s)
  | .buf b => sha256Digest (utf8Encode (utf8Decode b))

/-- Hash of a Buffer argument. -/
def hashBuf (b : Bytes) : Bytes := calculateHash (.buf b)

/-- Hash of a string argument. -/
def hashStr (s : JsStr) : Bytes := calculateHash (.str s)

/-- Association-list lookup; models `Map.get` / property access on the
insertion-ordered objects used by the pipeline. -/
def lookupA {α β : Type} [DecidableEq α] : List (α × β) → α → Option β
  | [], _ => none
  | (k, v) :: r, a => if k = a then some v else lookupA r a

/-- Association-list update; models `Map.set` / property assignment: an
existing key keeps its position, a new key is appended. -/
def mapSet {α β : Type} [DecidableEq α] : List (α × β) → α → β → List (α × β)
  | [], k, v => [(k, v)]
  | (k1, v1) :: r, k, v => if k1 = k then (k1, v) :: r else (k1, v1) :: mapSet r k v

/-- `path.extname`: the extension (including the dot) of the basename, empty
for dotfiles and extensionless names. -/
def extname (p : String) : String :=
  let base := (p.toList.reverse.takeWhile (fun ch => ch != '/')).reverse
  let revPre := base.reverse.takeWhile (fun ch => ch != '.')
  if revPre.length = base.length ∨ revPre.length + 1 = base.length then ""
  else String.mk (base.drop (base.length - revPre.length - 1))

/-- The text-extension allow list of `isTextFile`. -/
def textExtensions : List String :=
  [".js", ".ts", ".jsx", ".tsx", ".json", ".txt", ".md", ".yml", ".yaml",
   ".xml", ".html", ".css", ".scss", ".py", ".java", ".c", ".cpp", ".h",
   ".hpp", ".go", ".rs", ".rb", ".php", ".sql", ".sh", ".bash"]

/-- ASCII lowercasing (`String.toLowerCase` restricted to ASCII letters,
extensionally equal to it on every comparison the pipeline makes: the
extension allow list is pure ASCII and no non-ASCII character lowercases into
any of its entries). -/
def toLowerAscii (s : String) : String :=
  String.mk (s.toList.map (fun ch =>
    if 65 ≤ ch.toNat ∧ ch.toNat ≤ 90 then Char.ofNat (ch.toNat + 32) else ch))

/-- `isTextFile`: membership of the lowercased extension in the allow list. -/
def isTextFile (p : String) : Bool := textExtensions.contains (toLowerAscii (extname p))

/-- `content.replace(/\r\n/g, '\n')`. -/
def normalizeCrlf : JsStr → JsStr
  | [] => []
  | 13 :: 10 :: cs => 10 :: normalizeCrlf cs
  | c :: cs => c :: normalizeCrlf cs

/-- Split at newline characters (the segments between the `\n`s). -/
def splitNl : JsStr → List JsStr
  | [] => [[]]
  | 10 :: cs => [] :: splitNl cs
  | c :: cs =>
    match splitNl cs with
    | [] => [[c]]
    | l :: ls => (c :: l) :: ls

/-- Remove trailing spaces and tabs of one line: `/[ \t]+$/gm` on that line. -/
def rstripLine (l : JsStr) : JsStr :=
  (l.reverse.dropWhile (fun c => c == 32 || c == 9)).reverse

/-- Rejoin lines with newlines. -/
def joinNl (ls : List JsStr) : JsStr := List.intercalate [10] ls

/-- Fuelled helper of `collapseNl` (fuel equal to the length suffices: every
step consumes at least one character). -/
def collapseNlAux : Nat → JsStr → JsStr
  | _, [] => []
  | 0, l => l
  | fuel + 1, 10 :: 10 :: 10 :: cs =>
    10 :: 10 :: collapseNlAux fuel (cs.dropWhile (fun c => c == 10))
  | fuel + 1, c :: cs => c :: collapseNlAux fuel cs

/-- `content.replace(/\n{3,}/g, '\n\n')`: every maximal run of three or more
newlines becomes exactly two. -/
def collapseNl (l : JsStr) : JsStr := collapseNlAux l.length l

/-- Scalar values of a string literal (ASCII in all uses below). -/
def litOf (s : String) : JsStr := s.toList.map Char.toNat

/-- The regex word class `\w`. -/
def isWordCharN (c : Nat) : Bool :=
  decide (48 ≤ c ∧ c ≤ 57) || decide (65 ≤ c ∧ c ≤ 90) ||
  decide (97 ≤ c ∧ c ≤ 122) || c == 95

/-- The regex whitespace class `\s` (restricted to its ASCII members, the only
ones relevant to the modelled inputs). -/
def isJsWsN (c : Nat) : Bool :=
  c == 32 || c == 9 || c == 10 || c == 13 || c == 11 || c == 12

/-- Match a literal prefix, returning the remainder. -/
def stripLit : JsStr → JsStr → Option JsStr
  | [], l => some l
  | _ :: _, [] => none
  | x :: xs, c :: cs => if x = c then stripLit xs cs else none

/-- Greedy `\s+`. -/
def wsPlus (l : JsStr) : Option JsStr :=
  match l with
  | c :: cs => if isJsWsN c then some (cs.dropWhile isJsWsN) else none
  | [] => none

/-- Greedy `\w+`. -/
def wordPlus (l : JsStr) : Option JsStr :=
  match l with
  | c :: cs => if isWordCharN c then some (cs.dropWhile isWordCharN) else none
  | [] => none

/-- Greedy `\s*`. -/
def wsStar (l : JsStr) : JsStr := l.dropWhile isJsWsN

/-- Match one expected character. -/
def expectCh (n : Nat) (l : JsStr) : Option JsStr :=
  match l with
  | c :: cs => if c = n then some cs else none
  | [] => none

/-- `/function\s+\w+\s*\(/` at the current position (greedy quantifiers; the
character classes are pairwise disjoint at the boundaries, so greedy matching
is equivalent to backtracking). -/
def matchFunctionSig (l : JsStr) : Bool :=
  ((stripLit (litOf "function") l).bind wsPlus |>.bind wordPlus
    |>.map wsStar |>.bind (expectCh 40)).isSome

/-- `/class\s+\w+/` at the current position. -/
def matchClassDecl (l : JsStr) : Bool :=
  ((stripLit (litOf "class") l).bind wsPlus |>.bind wordPlus).isSome

/-- `/const\s+\w+\s*=/` at the current position. -/
def matchConstAssign (l : JsStr) : Bool :=
  ((stripLit (litOf "const") l).bind wsPlus |>.bind wordPlus
    |>.map wsStar |>.bind (expectCh 61)).isSome

/-- Does the literal occur before the next newline (the `.*lit` tail of a
single-line regex)? -/
def lineHasLit (lit : JsStr) : JsStr → Bool
  | [] => (stripLit lit []).isSome
  | c :: cs => (stripLit lit (c :: cs)).isSome || (if c = 10 then false else lineHasLit lit cs)

/-- `/import\s+.*from/` at the current position. -/
def matchImportFrom (l : JsStr) : Bool :=
  match (stripLit (litOf "import") l).bind wsPlus with
  | some rest => lineHasLit (litOf "from") rest
  | none => false

/-- `/export\s+(default\s+)?/` at the current position (the optional group
cannot affect whether the regex matches). -/
def matchExportKw (l : JsStr) : Bool :=
  ((stripLit (litOf "export") l).bind wsPlus).isSome

/-- Does the predicate hold at some position of the string (`RegExp.test`)? -/
def anyPos (p : JsStr → Bool) : JsStr → Bool
  | [] => p []
  | c :: cs => p (c :: cs) || anyPos p cs

/-- `isSourceCode`: any of the five code-indicator regexes matches. -/
def isSourceCode (s : JsStr) : Bool :=
  anyPos matchFunctionSig s || anyPos matchClassDecl s ||
  anyPos matchConstAssign s || anyPos matchImportFrom s || anyPos matchExportKw s

/-- Bytes consumed up to and including the first `*/`. -/
def findCloseIdx : JsStr → Option Nat
  | [] => none
  | [_] => none
  | a :: b :: cs =>
    if a = 42 ∧ b = 47 then some 2 else (findCloseIdx (b :: cs)).map (· + 1)

/-- `optimized.replace(/\/\*[\s\S]*?\*\//g, '')`: non-greedy block-comment
removal; an unterminated opener is left in place. -/
def stripBlockCommentsAux : Nat → JsStr → JsStr
  | _, [] => []
  | 0, l => l
  | fuel + 1, 47 :: 42 :: cs =>
    match findCloseIdx cs with
    | some k => stripBlockCommentsAux fuel (cs.drop k)
    | none => 47 :: 42 :: cs
  | fuel + 1, c :: cs => c :: stripBlockCommentsAux fuel cs

def stripBlockComments (l : JsStr) : JsStr := stripBlockCommentsAux l.length l

/-- `optimized.replace(/\/\/.*$/gm, '')`: drop from `//` to end of line. -/
def stripLineCommentsAux : Nat → JsStr → JsStr
  | _, [] => []
  | 0, l => l
  | fuel + 1, 47 :: 47 :: cs =>
    stripLineCommentsAux fuel (cs.dropWhile (fun c => c != 10))
  | fuel + 1, c :: cs => c :: stripLineCommentsAux fuel cs

def stripLineComments (l : JsStr) : JsStr := stripLineCommentsAux l.length l

/-- Helper of `removeEmptyLines`: of the newline-separated segments, every one
but the last carries a trailing newline and is deleted when whitespace-only. -/
def remEmptyAux : List JsStr → JsStr
  | [] => []
  | [last] => last
  | line :: rest =>
    if line.all isJsWsN then remEmptyAux rest else line ++ 10 :: remEmptyAux rest

/-- `optimized.replace(/^\s*\n/gm, '')`: delete whitespace-only lines together
with their terminating newline. -/
def removeEmptyLines (s : JsStr) : JsStr := remEmptyAux (splitNl s)

/-- `applyTextOptimizations`: normalize line endings, strip trailing
whitespace per line, collapse runs of blank lines; when the original content
looks like source code, additionally strip block and line comments and
whitespace-only lines. -/
def applyTextOptimizations (content : JsStr) : JsStr :=
  let optimized := collapseNl (joinNl ((splitNl (normalizeCrlf content)).map rstripLine))
  if isSourceCode content then
    removeEmptyLines (stripLineComments (stripBlockComments optimized))
  else optimized

/-- Length of `/(?:import|require)\s*\([^)]+\)/` matched at the current
position, if it matches. -/
def tryImportCallLen (l : JsStr) : Option Nat :=
  let afterKw : Option (Nat × JsStr) :=
    match stripLit (litOf "import") l with
    | some r => some (6, r)
    | none =>
      match stripLit (litOf "require") l with
      | some r => some (7, r)
      | none => none
  match afterKw with
  | none => none
  | some (k, r) =>
    let wsN := (r.takeWhile isJsWsN).length
    let r2 := r.drop wsN
    match r2 with
    | 40 :: r3 =>
      let inner := r3.takeWhile (fun c => c != 41)
      if inner.length = 0 then none
      else
        match r3.drop inner.length with
        | 41 :: _ => some (k + wsN + 1 + inner.length + 1)
        | _ => none
    | _ => none

/-- Length of `/function\s+\w+\s*\([^)]*\)/` matched at the current position,
if it matches. -/
def tryFuncSigLen (l : JsStr) : Option Nat :=
  match stripLit (litOf "function") l with
  | none => none
  | some r =>
    match r with
    | c :: _ =>
      if isJsWsN c then
        let wsN := (r.takeWhile isJsWsN).length
        let r2 := r.drop wsN
        match r2 with
        | d :: _ =>
          if isWordCharN d then
            let wN := (r2.takeWhile isWordCharN).length
            let r3 := r2.drop wN
            let ws2 := (r3.takeWhile isJsWsN).length
            let r4 := r3.drop ws2
            match r4 with
            | 40 :: r5 =>
              let inner := r5.takeWhile (fun c => c != 41)
              match r5.drop inner.length with
              | 41 :: _ => some (8 + wsN + wN + ws2 + 1 + inner.length + 1)
              | _ => none
            | _ => none
          else none
        | [] => none
      else none
    | [] => none

/-- All matches of a global regex, scanning left to right and resuming after
each match (`String.match` with the `g` flag). -/
def extractMatchesAux (tryLen : JsStr → Option Nat) : Nat → JsStr → List JsStr
  | _, [] => []
  | 0, _ => []
  | fuel + 1, c :: cs =>
    match tryLen (c :: cs) with
    | some (k + 1) =>
      (c :: cs).take (k + 1) :: extractMatchesAux tryLen fuel ((c :: cs).drop (k + 1))
    | _ => extractMatchesAux tryLen fuel cs

def extractMatches (tryLen : JsStr → Option Nat) (l : JsStr) : List JsStr :=
  extractMatchesAux tryLen l.length l

/-- `patterns.set(pat, (patterns.get(pat) || 0) + 1)`. -/
def bumpCount (m : List (JsStr × Nat)) (key : JsStr) : List (JsStr × Nat) :=
  match lookupA m key with
  | some n => mapSet m key (n + 1)
  | none => mapSet m key 1

/-- Insert one entry into a count-descending list, after entries with an equal
count: together with a left fold this reproduces V8's stable sort under the
comparator `(a, b) => b[1] - a[1]`. -/
def insertDesc (x : JsStr × Nat) : List (JsStr × Nat) → List (JsStr × Nat)
  | [] => [x]
  | y :: ys => if y.2 < x.2 then x :: y :: ys else y :: insertDesc x ys

/-- `createDictionary`: count import/require-call and function-signature
matches over all group members, take the 50 most frequent patterns in
descending frequency, and join them with newlines. -/
def createDictionary (contents : List JsStr) : JsStr :=
  let counted := contents.foldl
    (fun m content =>
      let afterImports := (extractMatches tryImportCallLen content).foldl bumpCount m
      (extractMatches tryFuncSigLen content).foldl bumpCount afterImports)
    []
  let top := ((counted.foldl (fun acc x => insertDesc x acc) []).take 50).map Prod.fst
  List.intercalate [10] top

/-- The byte-level compression primitive (`lzma.compress` at a level, and
`lzma.decompress`), §6 collaborator interface.  String inputs of the source
are UTF-8 encoded before being handed to `compress`, and
`Buffer.from(lzma.decompress(...))` yields exactly the decompressed bytes. -/
structure Codec where
  compress : Nat → Bytes → Bytes
  decompress : Bytes → Bytes

/-- Correctness of the compression primitive: decompression is a left inverse
of compression at every level. -/
def Codec.RoundTrip (c : Codec) : Prop := ∀ lvl d, c.decompress (c.compress lvl d) = d

/-- The trivial correct codec, used to evaluate the model concretely. -/
def idCodec : Codec := ⟨fun _ d => d, fun d => d⟩

/-- One entry of the archive's `files` mapping: the three record kinds of the
source.  The derived display string `compressionRatio` and the constant
`algorithm: 'lzma'` field are omitted; `content` holds the payload bytes (the
base64 coding of the source is a bijection and is modelled as the identity). -/
inductive FileRecord where
  | standard (content : Bytes) (originalHash : Bytes) (originalSize compressedSize : Nat)
  | duplicate (referenceFile : String) (originalHash : Bytes) (originalSize : Nat)
  | dictionary (content : Bytes) (originalHash : Bytes) (originalSize compressedSize : Nat)
      (dict : JsStr)
deriving DecidableEq

/-- The `originalHash` field, present on every record kind. -/
def FileRecord.originalHash : FileRecord → Bytes
  | .standard _ h _ _ => h
  | .duplicate _ h _ => h
  | .dictionary _ h _ _ _ => h

/-- The `originalSize` field, present on every record kind. -/
def FileRecord.originalSize : FileRecord → Nat
  | .standard _ _ s _ => s
  | .duplicate _ _ s => s
  | .dictionary _ _ s _ _ => s

/-- The `compressedSize` property access: `undefined` (`none`) on duplicate
records, which carry no such field. -/
def FileRecord.compressedSizeO : FileRecord → Option Nat
  | .standard _ _ _ cs => some cs
  | .duplicate _ _ _ => none
  | .dictionary _ _ _ cs _ => some cs

/-- Is this a `type: 'duplicate'` record? -/
def FileRecord.isDup : FileRecord → Bool
  | .duplicate _ _ _ => true
  | _ => false

/-- The options of `compressFile`/`compressDirectory`; `algorithm` is fixed to
`'lzma'` (the only value the source ever passes). -/
structure Opts where
  level : Nat
  dedup : Bool
  delta : Bool
deriving DecidableEq

/-- The mutable state threaded through one build: the growing `fileMap`, the
deduplication index `fileHashes` (hash to first relative path) and the
per-extension grouping buffer `fileGroups` of the dictionary optimizer. -/
structure BState where
  fileMap : List (String × FileRecord)
  fileHashes : List (Bytes × String)
  fileGroups : List (String × List (String × JsStr))
deriving DecidableEq

/-- Fresh build state: all three containers start empty per build. -/
def initState : BState := ⟨[], [], []⟩

/-- `tryDictionaryCompression`: push the file into its extension group; once
the group has at least three members, derive a dictionary and compress
`dictionary + '\n' + content`, returning the result and the dictionary text.
The source's internal try/catch cannot fire in the pure model. -/
def tryDictionaryCompression (codec : Codec) (lvl : Nat) (content : JsStr) (p : String)
    (groups : List (String × List (String × JsStr))) :
    List (String × List (String × JsStr)) × Option (Bytes × JsStr) :=
  let ext := extname p
  let group := ((lookupA groups ext).getD []) ++ [(p, content)]
  let groups2 := mapSet groups ext group
  if 3 ≤ group.length then
    let dict := createDictionary (group.map Prod.snd)
    let compressed := codec.compress lvl (utf8Encode (dict ++ 10 :: content))
    (groups2, some (compressed, dict))
  else (groups2, none)

/-- `validateFileCompression`: decompress the record's payload (stripping the
dictionary prefix and its newline on dictionary records) and compare hashes
against the original content; duplicates are skipped. -/
def validateFileCompression (codec : Codec) (fileInfo : FileRecord)
    (originalContent : Bytes) : Except String Unit :=
  match fileInfo with
  | .duplicate _ _ _ => .ok ()
  | .standard c _ _ _ =>
    if calculateHash (.buf (codec.decompress c)) = calculateHash (.buf originalContent) then
      .ok ()
    else .error "Compression validation failed: Hash mismatch after compression"
  | .dictionary c _ _ _ dict =>
    if calculateHash (.buf ((codec.decompress c).drop ((utf8Encode dict).length + 1)))
        = calculateHash (.buf originalContent) then
      .ok ()
    else .error "Compression validation failed: Hash mismatch after compression"

/-- `compressFile`.  Mirrors the source step by step: read (`data`, `none`
meaning the read throws), hash the raw buffer, short-circuit on a
deduplication hit, register the hash, normalize text when delta compression is
on, compress (string content is UTF-8 encoded by the primitive), attempt
dictionary compression for text under delta, choose the dictionary record only
when strictly smaller, store the record, then self-validate.  The record is
stored *before* validation, so a failed validation leaves it in the map, and
all mutations up to a throw persist, as with the source's in-place mutation. -/
def compressFile (codec : Codec) (opts : Opts) (p : String) (data : Option Bytes)
    (st : BState) : BState × Except String Unit :=
  match data with
  | none => (st, .error ("Error compressing file " ++ p))
  | some content =>
    let originalHash := calculateHash (.buf content)
    match (if opts.dedup then lookupA st.fileHashes originalHash else none) with
    | some ref =>
      ({ st with fileMap := mapSet st.fileMap p (.duplicate ref originalHash content.length) },
        .ok ())
    | none =>
      let st1 := { st with
        fileHashes := if opts.dedup then mapSet st.fileHashes originalHash p
          else st.fileHashes }
      if isTextFile p then
        let s0 := utf8Decode content
        let dataToCompress := if opts.delta then applyTextOptimizations s0 else s0
        let compressed := codec.compress opts.level (utf8Encode dataToCompress)
        if opts.delta then
          let tr := tryDictionaryCompression codec opts.level dataToCompress p st1.fileGroups
          let st2 := { st1 with fileGroups := tr.1 }
          let rcd :=
            match tr.2 with
            | some (bc, dict) =>
              if bc.length < compressed.length then
                FileRecord.dictionary bc originalHash content.length bc.length dict
              else
                FileRecord.standard compressed originalHash content.length compressed.length
            | none =>
              FileRecord.standard compressed originalHash content.length compressed.length
          ({ st2 with fileMap := mapSet st2.fileMap p rcd },
            validateFileCompression codec rcd content)
        else
          let rcd := FileRecord.standard compressed originalHash content.length compressed.length
          ({ st1 with fileMap := mapSet st1.fileMap p rcd },
            validateFileCompression codec rcd content)
      else
        let compressed := codec.compress opts.level content
        let rcd := FileRecord.standard compressed originalHash content.length compressed.length
        ({ st1 with fileMap := mapSet st1.fileMap p rcd },
          validateFileCompression codec rcd content)

/-- The state transition of one loop iteration of `compressFiles`: the
per-file error is caught and logged, the mutated state survives. -/
def stepState (codec : Codec) (opts : Opts) (st : BState) (f : String × Option Bytes) :
    BState := (compressFile codec opts f.1 f.2 st).1

/-- `compressFiles`: sequentially compress every enumerated file into a fresh
build state, skipping over per-file errors. -/
def compressFiles (codec : Codec) (opts : Opts) (files : List (String × Option Bytes)) :
    BState :=
  files.foldl (stepState codec opts) initState

/-- JavaScript number results of the metadata arithmetic: a finite value, NaN,
or Infinity. -/
inductive JsNum where
  | num (q : ℚ)
  | nan
  | inf
deriving DecidableEq

/-- One reduction step of `sum + file.compressedSize` (and of `originalSize`):
adding `undefined` (`none`) to anything is NaN. -/
def jsAddSize : JsNum → Option Nat → JsNum
  | .num a, some n => .num (a + n)
  | .inf, some _ => .inf
  | .nan, some _ => .nan
  | _, none => .nan

/-- JavaScript division on the metadata numbers. -/
def jsDiv : JsNum → JsNum → JsNum
  | .num a, .num b => if b = 0 then (if a = 0 then .nan else .inf) else .num (a / b)
  | .nan, _ => .nan
  | .num _, .nan => .nan
  | .inf, .nan => .nan
  | .inf, .num _ => .inf
  | .num _, .inf => .num 0
  | .inf, .inf => .nan

/-- Multiplication by the literal 100 in the ratio computation. -/
def jsMul100 : JsNum → JsNum
  | .num a => .num (a * 100)
  | .nan => .nan
  | .inf => .inf

/-- `ArchiveMetadata`: the derived aggregate fields.  `timestamp`,
`sourceDirectory`, `version` and `tool` are environment or constant strings
and are omitted; `overallCompressionRatio` is modelled before its `toFixed(2)`
display formatting as `ratioPercent`. -/
structure ArchiveMetadata where
  fileCount : Nat
  totalOriginalSize : JsNum
  totalCompressedSize : JsNum
  ratioPercent : JsNum
deriving DecidableEq

/-- `createCompressionMetadata`: reduce the two size sums over all records of
the file map and derive the overall ratio. -/
def createCompressionMetadata (files : List (String × Option Bytes))
    (fileMap : List (String × FileRecord)) : ArchiveMetadata :=
  let tos := fileMap.foldl (fun acc e => jsAddSize acc (some e.2.originalSize)) (.num 0)
  let tcs := fileMap.foldl (fun acc e => jsAddSize acc e.2.compressedSizeO) (.num 0)
  { fileCount := files.length
    totalOriginalSize := tos
    totalCompressedSize := tcs
    ratioPercent := jsMul100 (jsDiv tcs tos) }

/-- The persisted archive: metadata plus the insertion-ordered file mapping.
The JSON serialization and outer envelope compression form a bijection with
the written blob (envelope round-trip is the codec contract), so the archive
value itself stands for the artifact. -/
structure Archive where
  metadata : ArchiveMetadata
  files : List (String × FileRecord)
deriving DecidableEq

/-- The per-file loop of `validateCompressedArchive`: re-read each original as
UTF-8 text, rehash, and compare against the record's stored hash. -/
def validateFilesLoop (am : List (String × FileRecord)) :
    List (String × Option Bytes) → Except String Unit
  | [] => .ok ()
  | (p, d) :: rest =>
    match d with
    | none => .error ("Error reading original file: " ++ p)
    | some b =>
      match lookupA am p with
      | none => .error ("File missing from archive: " ++ p)
      | some rcd =>
        if calculateHash (.str (utf8Decode b)) = rcd.originalHash then
          validateFilesLoop am rest
        else .error ("Hash mismatch for file: " ++ p)

/-- `validateCompressedArchive`: file-count check, then the per-file hash
check against the on-disk originals. -/
def validateCompressedArchive (a : Archive) (files : List (String × Option Bytes)) :
    Except String Unit :=
  if a.files.length = files.length then
    match validateFilesLoop a.files files with
    | .ok _ => .ok ()
    | .error e => .error ("Validation failed: " ++ e)
  else .error "Validation failed: File count mismatch"

/-- `compressDirectory` on an existing directory: enumerate (the input list),
compress all files, derive metadata, assemble the archive, and optionally
validate it before returning.  Source-directory validation and output
directory creation are filesystem effects outside the pure model; an empty
input list is the empty-directory case (a warning only). -/
def compressDirectory (codec : Codec) (opts : Opts) (validateAfter : Bool)
    (files : List (String × Option Bytes)) : Except String Archive :=
  let st := compressFiles codec opts files
  let md := createCompressionMetadata files st.fileMap
  let archive : Archive := ⟨md, st.fileMap⟩
  if validateAfter then
    match validateCompressedArchive archive files with
    | .ok _ => .ok archive
    | .error e => .error ("Compression failed: " ++ e)
  else .ok archive

/-- The bytes a non-duplicate record decompresses to (dictionary records drop
the dictionary prefix and its newline). -/
def payloadBytes (codec : Codec) : FileRecord → Bytes
  | .standard c _ _ _ => codec.decompress c
  | .dictionary c _ _ _ dict => (codec.decompress c).drop ((utf8Encode dict).length + 1)
  | .duplicate _ _ _ => []

/-- The extraction loop of `decompressArchive`: process the given file
entries in order, resolving duplicates against the already-extracted files
(`processedFiles`), and verify each extracted file's hash. -/
def decompressGo (codec : Codec) :
    List (String × FileRecord) → List (String × Bytes) → Except String (List (String × Bytes))
  | [], acc => .ok acc
  | (p, rcd) :: rest, acc =>
    match rcd with
    | .duplicate ref h _ =>
      match lookupA acc ref with
      | some bytes =>
        if calculateHash (.buf bytes) = h then decompressGo codec rest (acc ++ [(p, bytes)])
        else .error ("Extraction validation failed for: " ++ p)
      | none => .error ("Reference file not yet processed: " ++ ref)
    | .standard c h _ _ =>
      let bytes := codec.decompress c
      if calculateHash (.buf bytes) = h then decompressGo codec rest (acc ++ [(p, bytes)])
      else .error ("Extraction validation failed for: " ++ p)
    | .dictionary c h _ _ dict =>
      let bytes := (codec.decompress c).drop ((utf8Encode dict).length + 1)
      if calculateHash (.buf bytes) = h then decompressGo codec rest (acc ++ [(p, bytes)])
      else .error ("Extraction validation failed for: " ++ p)

/-- Decimal value of a digit string. -/
def digitsVal (cs : List Char) : Nat :=
  cs.foldl (fun a c => 10 * a + (c.toNat - 48)) 0

/-- Is the string an ECMAScript array-index key: a canonical decimal numeral
(digits only, no leading zero except `"0"` itself) whose value is below
2^32 - 1?  `Object.entries` enumerates such own keys first, in ascending
numeric order, ahead of the remaining keys in insertion order. -/
def isArrayIndex (s : String) : Bool :=
  match s.toList with
  | [] => false
  | c :: cs =>
    (c :: cs).all (fun ch => decide (48 ≤ ch.toNat ∧ ch.toNat ≤ 57)) &&
    (c != '0' || cs.isEmpty) &&
    decide (digitsVal (c :: cs) < 4294967295)

/-- Insert an entry into a list sorted ascending by numeric key value. -/
def insertByVal {β : Type} (e : String × β) : List (String × β) → List (String × β)
  | [] => [e]
  | f :: fs =>
    if digitsVal e.1.toList ≤ digitsVal f.1.toList then e :: f :: fs
    else f :: insertByVal e fs

/-- Sort entries ascending by numeric key value (insertion sort). -/
def sortByVal {β : Type} : List (String × β) → List (String × β)
  | [] => []
  | e :: es => insertByVal e (sortByVal es)

/-- The `Object.entries` enumeration order of a JSON-parsed object whose keys
were created in the order of `m`: array-index keys first, ascending
numerically, then the remaining keys in insertion order. -/
def jsEntries {β : Type} (m : List (String × β)) : List (String × β) :=
  sortByVal (m.filter (fun e => isArrayIndex e.1)) ++
    m.filter (fun e => !(isArrayIndex e.1))

/-- `decompressArchive`: extract every file of the archive, iterating the
parsed `files` object in `Object.entries` enumeration order (array-index-like
relative paths first, ascending, then the rest in insertion order), returning
the written files (relative path, bytes) in extraction order. -/
def decompressArchive (codec : Codec) (a : Archive) :
    Except String (List (String × Bytes)) :=
  decompressGo codec (jsEntries a.files) []

/-- A fully readable source tree as build input. -/
def asInput (tree : List (String × Bytes)) : List (String × Option Bytes) :=
  tree.map (fun f => (f.1, some f.2))

/-- The option defaults of `compressDirectory` (level 9, deduplication and
delta compression enabled). -/
def defaultOpts : Opts := ⟨9, true, true⟩

/-- The C2 failing input: one text file whose content `"a \n"` carries
trailing whitespace, so delta normalization changes it. -/
def c2input : List (String × Option Bytes) := [("a.txt", some [97, 32, 10])]

/-- The C3 counterexample input: two text files with identical content
`"a \n"`, which delta normalization changes. -/
def c3input : List (String × Option Bytes) :=
  [("a.txt", some [97, 32, 10]), ("b.txt", some [97, 32, 10])]

/-- The C6 counterexample input: a single file whose read fails. -/
def c6input : List (String × Option Bytes) := [("a.bin", none)]

/-- The C10 witness input: two byte-identical binary files. -/
def c10ex : List (String × Option Bytes) := [("a.bin", some [0]), ("b.bin", some [0])]

/-- The archive built from `c10ex` with deduplication on and delta off. -/
def c10arch : Archive :=
  ⟨createCompressionMetadata c10ex (compressFiles idCodec ⟨9, true, false⟩ c10ex).fileMap,
    (compressFiles idCodec ⟨9, true, false⟩ c10ex).fileMap⟩

/-- The relative paths of the files of a tree whose reads succeed, in
enumeration order. -/
def goodKeys : List (String × Option Bytes) → List String
  | [] => []
  | (_, none) :: rest => goodKeys rest
  | (p, some _) :: rest => p :: goodKeys rest

/-- The relative path of the first readable file of the tree with the given
content hash: the path the deduplication index associates to that hash. -/
def firstGood : List (String × Option Bytes) → Bytes → Option String
  | [], _ => none
  | (_, none) :: rest, h => firstGood rest h
  | (p, some b) :: rest, h => if hashBuf b = h then some p else firstGood rest h

/-- The bytes actually handed to the compression primitive for a file with
delta compression disabled: text files are compressed as their decoded string
(re-encoded as UTF-8 by the primitive), binary files as their raw bytes. -/
def encBytes (p : String) (b : Bytes) : Bytes :=
  if isTextFile p then utf8Encode (utf8Decode b) else b

/-- The record `compressFile` produces for a readable file under delta-off
options, as a function of the files processed before it. -/
def recordAt (codec : Codec) (opts : Opts) (before : List (String × Option Bytes))
    (p : String) (b : Bytes) : FileRecord :=
  match (if opts.dedup then firstGood before (hashBuf b) else none) with
  | some ref => .duplicate ref (hashBuf b) b.length
  | none =>
    .standard (codec.compress opts.level (encBytes p b)) (hashBuf b) b.length
      (codec.compress opts.level (encBytes p b)).length

/-- The build-state invariant maintained while `compressFiles` walks the tree:
`pre` is the already-processed prefix.  Conjuncts: the file-map keys are
exactly the readable processed paths in order; with deduplication on, the
dedup index realizes `firstGood` of the processed prefix (and stays empty with
deduplication off); every index entry points to a non-duplicate record with
that hash; every duplicate record resolves to an earlier non-duplicate record
with the same stored hash; every readable processed file has a record carrying
its raw-content hash and byte length; and with delta compression off that
record is exactly `recordAt` of the prefix before the file. -/
def BuildInv (codec : Codec) (opts : Opts) (pre : List (String × Option Bytes))
    (st : BState) : Prop :=
  st.fileMap.map Prod.fst = goodKeys pre ∧
  (opts.dedup = true → ∀ h, lookupA st.fileHashes h = firstGood pre h) ∧
  (opts.dedup = false → st.fileHashes = []) ∧
  (∀ hq ∈ st.fileHashes, ∃ rcd, lookupA st.fileMap hq.2 = some rcd ∧
    rcd.isDup = false ∧ rcd.originalHash = hq.1) ∧
  (∀ m1 p rcd m2, st.fileMap = m1 ++ (p, rcd) :: m2 → ∀ ref h sz,
    rcd = .duplicate ref h sz →
    ∃ rcd2, lookupA m1 ref = some rcd2 ∧ rcd2.isDup = false ∧ rcd2.originalHash = h) ∧
  (∀ p b, (p, some b) ∈ pre → ∃ rcd, lookupA st.fileMap p = some rcd ∧
    rcd.originalHash = hashBuf b ∧ rcd.originalSize = b.length) ∧
  (opts.delta = false → ∀ pre1 p b post1, pre = pre1 ++ (p, some b) :: post1 →
    lookupA st.fileMap p = some (recordAt codec opts pre1 p b))

/-- The byte lengths of the readable files of a tree, in order. -/
def goodSizes : List (String × Option Bytes) → List Nat
  | [] => []
  | (_, none) :: rest => goodSizes rest
  | (_, some b) :: rest => b.length :: goodSizes rest

/-- The C4 witness input: two byte-identical binary files. -/
def c4ex : List (String × Option Bytes) := [("a.bin", some [0]), ("b.bin", some [0])]

/-- The archive built from `c4ex` with deduplication on and delta off. -/
def c4arch : Archive :=
  ⟨createCompressionMetadata c4ex (compressFiles idCodec ⟨9, true, false⟩ c4ex).fileMap,
    (compressFiles idCodec ⟨9, true, false⟩ c4ex).fileMap⟩

/-- The C6 witness input: a readable text file whose self-validation fails,
plus a file whose read fails. -/
def c6wex : List (String × Option Bytes) :=
  [("a.txt", some [97, 32, 10]), ("b.bin", none)]

/-- The C7 witness tree: one text and one binary file. -/
def c7ex : List (String × Bytes) := [("a.txt", [104]), ("b.bin", [0])]

/-- The archive built from `c7ex` with default options. -/
def c7arch : Archive :=
  ⟨createCompressionMetadata (asInput c7ex)
      (compressFiles idCodec defaultOpts (asInput c7ex)).fileMap,
    (compressFiles idCodec defaultOpts (asInput c7ex)).fileMap⟩

/-- During extraction, a duplicate's reference with stored hash `h` is
serviceable if it is already extracted with matching bytes, or still pending
in the part of the mapping before the duplicate as a non-duplicate record with
hash `h`. -/
def RefTarget (codec : Codec) (acc : List (String × Bytes))
    (m1 : List (String × FileRecord)) (ref : String) (h : Bytes) : Prop :=
  (∃ bb, lookupA acc ref = some bb ∧ hashBuf bb = h) ∨
  (lookupA acc ref = none ∧ ∃ rcd2, lookupA m1 ref = some rcd2 ∧ rcd2.isDup = false ∧
    rcd2.originalHash = h)

/-- Extraction precondition for the remaining mapping `m` against the
already-extracted files `acc`: every non-duplicate record's payload hashes to
its stored hash, and every duplicate record has a serviceable reference. -/
def ExtOk (codec : Codec) (acc : List (String × Bytes))
    (m : List (String × FileRecord)) : Prop :=
  ∀ m1 p rcd m2, m = m1 ++ (p, rcd) :: m2 →
    (rcd.isDup = false → hashBuf (payloadBytes codec rcd) = rcd.originalHash) ∧
    (∀ ref h sz, rcd = .duplicate ref h sz → RefTarget codec acc m1 ref h)

/-- The C1 witness tree. -/
def c1t : List (String × Bytes) := [("a.txt", [104]), ("b.bin", [104])]

/-- The C3 witness tree: two byte-identical binary files, delta off. -/
def c3t : List (String × Bytes) := [("a.bin", [0]), ("b.bin", [0])]

/-- The C8 witness content (one byte). -/
def c8content : Bytes := [104]

/-- The C8 witness content in normalized text form. -/
def c8dtc : JsStr := applyTextOptimizations (utf8Decode c8content)

/-- Its plain compressed form (identity codec, level 9). -/
def c8cmp : Bytes := idCodec.compress 9 (utf8Encode c8dtc)

/-- The extension group of the C8 witness file after its own push. -/
def c8grp : List (String × JsStr) :=
  ((lookupA initState.fileGroups (extname "a.js")).getD []) ++ [("a.js", c8dtc)]

/-- The C1 counterexample tree: one text file whose single byte 0xFF is not
valid UTF-8, so the lossy hash preprocessing changes it. -/
def c1bad : List (String × Bytes) := [("a.txt", [255])]

theorem utf8DecodeAux_congr (f1 : Nat) : ∀ (f2 : Nat) (l : Bytes),
    l.length ≤ f1 → l.length ≤ f2 → utf8DecodeAux f1 l = utf8DecodeAux f2 l := by
  induction f1 with
  | zero =>
    intro f2 l h1 _
    have : l = [] := List.eq_nil_of_length_eq_zero (Nat.le_zero.mp h1)
    subst this
    cases f2 <;> rfl
  | succ f ih =>
    intro f2 l h1 h2
    cases l with
    | nil => cases f2 <;> rfl
    | cons b1 rest =>
      cases f2 with
      | zero => simp at h2
      | succ g =>
        simp only [utf8DecodeAux]
        refine congrArg _ (ih g (rest.drop (utf8DecodeStep b1 rest).2) ?_ ?_) <;>
          simp only [List.length_drop] <;> simp only [List.length_cons] at h1 h2 <;> omega

theorem utf8Decode_nil : utf8Decode [] = [] := rfl

theorem utf8Decode_cons (b1 : Nat) (rest : Bytes) :
    utf8Decode (b1 :: rest) =
      (utf8DecodeStep b1 rest).1 :: utf8Decode (rest.drop (utf8DecodeStep b1 rest).2) := by
  unfold utf8Decode
  simp only [List.length_cons, utf8DecodeAux]
  refine congrArg _ (utf8DecodeAux_congr _ _ _ ?_ ?_) <;>
    simp only [List.length_drop] <;> omega

theorem utf8DecodeStep_valid_pair (b1 : Nat) (rest : Bytes) (v k : Nat)
    (heq : utf8DecodeStep b1 rest = (v, k)) : ValidScalar v := by
  unfold ValidScalar
  unfold utf8DecodeStep utf8Cont2Ok utf8Cont3Ok at heq
  repeat' split at heq
  all_goals injection heq with h1 h2
  all_goals subst h1
  all_goals constructor <;> omega

/-- Every scalar produced by one decoding step is a valid scalar value. -/
theorem utf8DecodeStep_valid (b1 : Nat) (rest : Bytes) :
    ValidScalar (utf8DecodeStep b1 rest).1 :=
  utf8DecodeStep_valid_pair b1 rest _ _ rfl

theorem utf8DecodeAux_valid (fuel : Nat) : ∀ (l : Bytes), ∀ c ∈ utf8DecodeAux fuel l,
    ValidScalar c := by
  induction fuel with
  | zero =>
    intro l c hc
    cases l <;> simp [utf8DecodeAux] at hc
  | succ f ih =>
    intro l c hc
    cases l with
    | nil => simp [utf8DecodeAux] at hc
    | cons b1 rest =>
      simp only [utf8DecodeAux] at hc
      rcases List.mem_cons.mp hc with h | h
      · subst h; exact utf8DecodeStep_valid b1 rest
      · exact ih _ c h

/-- Every scalar produced by the decoder is a valid scalar value. -/
theorem utf8Decode_valid (b : Bytes) : ∀ c ∈ utf8Decode b, ValidScalar c :=
  utf8DecodeAux_valid b.length b

/-- Decoding the encoding of a valid scalar consumes exactly its bytes. -/
theorem utf8Decode_encodeChar (c : Nat) (h : ValidScalar c) (bs : Bytes) :
    utf8Decode (utf8EncodeChar c ++ bs) = c :: utf8Decode bs := by
  obtain ⟨h1, h2⟩ := h
  by_cases hc1 : c < 0x80
  · have e : utf8EncodeChar c = [c] := by
      unfold utf8EncodeChar; rw [if_pos hc1]
    have hs : utf8DecodeStep c bs = (c, 0) := by
      unfold utf8DecodeStep; rw [if_pos hc1]
    rw [e, List.cons_append, List.nil_append, utf8Decode_cons, hs]
    simp
  by_cases hc2 : c < 0x800
  · have e : utf8EncodeChar c = [0xC0 + c / 64, 0x80 + c % 64] := by
      unfold utf8EncodeChar; rw [if_neg hc1, if_pos hc2]
    have hs : utf8DecodeStep (0xC0 + c / 64) ((0x80 + c % 64) :: bs) = (c, 1) := by
      unfold utf8DecodeStep
      rw [if_neg (by omega), if_neg (by omega), if_pos (by omega)]
      simp only
      rw [if_pos (by omega)]
      simp only [Prod.mk.injEq]
      exact ⟨by omega, trivial⟩
    rw [e, List.cons_append, List.cons_append, List.nil_append, utf8Decode_cons, hs]
    simp
  by_cases hc3 : c < 0x10000
  · have e : utf8EncodeChar c = [0xE0 + c / 4096, 0x80 + c / 64 % 64, 0x80 + c % 64] := by
      unfold utf8EncodeChar
      rw [if_neg hc1, if_neg hc2, if_pos hc3, if_neg (by omega)]
    have hcont : utf8Cont2Ok (0xE0 + c / 4096) (0x80 + c / 64 % 64) := by
      unfold utf8Cont2Ok
      refine ⟨fun hE0 => ?_, fun hED => ?_, fun hE0 hED => ?_⟩ <;> omega
    have hs : utf8DecodeStep (0xE0 + c / 4096) ((0x80 + c / 64 % 64) :: (0x80 + c % 64) :: bs)
        = (c, 2) := by
      unfold utf8DecodeStep
      rw [if_neg (by omega), if_neg (by omega), if_neg (by omega), if_pos (by omega)]
      simp only
      rw [if_pos hcont, if_pos (by omega)]
      simp only [Prod.mk.injEq]
      exact ⟨by omega, trivial⟩
    rw [e, List.cons_append, List.cons_append, List.cons_append, List.nil_append,
      utf8Decode_cons, hs]
    simp
  by_cases hc4 : c < 0x110000
  · have e : utf8EncodeChar c =
        [0xF0 + c / 262144, 0x80 + c / 4096 % 64, 0x80 + c / 64 % 64, 0x80 + c % 64] := by
      unfold utf8EncodeChar
      rw [if_neg hc1, if_neg hc2, if_neg hc3, if_pos hc4]
    have hcont : utf8Cont3Ok (0xF0 + c / 262144) (0x80 + c / 4096 % 64) := by
      unfold utf8Cont3Ok
      refine ⟨fun hF0 => ?_, fun hF4 => ?_, fun hF0 hF4 => ?_⟩ <;> omega
    have hs : utf8DecodeStep (0xF0 + c / 262144)
        ((0x80 + c / 4096 % 64) :: (0x80 + c / 64 % 64) :: (0x80 + c % 64) :: bs)
        = (c, 3) := by
      unfold utf8DecodeStep
      rw [if_neg (by omega), if_neg (by omega), if_neg (by omega), if_neg (by omega),
        if_pos (by omega)]
      simp only
      rw [if_pos hcont, if_pos (by omega), if_pos (by omega)]
      simp only [Prod.mk.injEq]
      exact ⟨by omega, trivial⟩
    rw [e, List.cons_append, List.cons_append, List.cons_append, List.cons_append,
      List.nil_append, utf8Decode_cons, hs]
    simp
  · omega

/-- Decoding is a left inverse of encoding on sequences of valid scalars. -/
theorem utf8Decode_utf8Encode (s : JsStr) (h : ∀ c ∈ s, ValidScalar c) :
    utf8Decode (utf8Encode s) = s := by
  induction s with
  | nil => simp [utf8Encode, utf8Decode_nil]
  | cons c cs ih =>
    rw [utf8Encode, utf8Decode_encodeChar c (h c (List.mem_cons_self c cs)),
      ih (fun d hd => h d (List.mem_cons_of_mem c hd))]

/-- Re-encoding decoded bytes is idempotent: the core fact behind every hash
comparison the pipeline performs on buffers. -/
theorem utf8Encode_decode_idem (b : Bytes) :
    utf8Encode (utf8Decode (utf8Encode (utf8Decode b))) = utf8Encode (utf8Decode b) := by
  rw [utf8Decode_utf8Encode (utf8Decode b) (utf8Decode_valid b)]

theorem utf8Encode_append (s t : JsStr) :
    utf8Encode (s ++ t) = utf8Encode s ++ utf8Encode t := by
  induction s with
  | nil => simp [utf8Encode]
  | cons c cs ih => simp [utf8Encode, ih]

theorem lengthDropWhileLe (p : Nat → Bool) (l : List Nat) :
    (l.dropWhile p).length ≤ l.length := by
  induction l with
  | nil => simp [List.dropWhile]
  | cons c cs ih =>
    rw [List.dropWhile]
    split
    · exact Nat.le_succ_of_le ih
    · exact Nat.le_refl _

theorem findCloseIdx_le (l : JsStr) (k : Nat) (h : findCloseIdx l = some k) :
    k ≤ l.length := by
  induction l using findCloseIdx.induct generalizing k with
  | case1 => simp [findCloseIdx] at h
  | case2 _ => simp [findCloseIdx] at h
  | case3 a b cs hcond =>
    rw [findCloseIdx, if_pos hcond] at h
    simp only [Option.some.injEq] at h
    simp only [List.length_cons]
    omega
  | case4 a b cs hcond ih =>
    rw [findCloseIdx, if_neg hcond] at h
    cases hfc : findCloseIdx (b :: cs) with
    | none => rw [hfc] at h; simp at h
    | some k0 =>
      rw [hfc] at h
      simp only [Option.map_some', Option.some.injEq] at h
      have := ih k0 hfc
      simp only [List.length_cons] at *
      omega

theorem idCodec_roundTrip : Codec.RoundTrip idCodec := fun _ _ => rfl


theorem jsAddSize_nan (o : Option Nat) : jsAddSize .nan o = .nan := by
  cases o <;> rfl

theorem foldSizes_from_nan (l : List (String × FileRecord)) :
    l.foldl (fun acc e => jsAddSize acc e.2.compressedSizeO) .nan = .nan := by
  induction l with
  | nil => rfl
  | cons e rest ih => simp only [List.foldl, jsAddSize_nan, ih]

theorem foldSizes_dup : ∀ (l : List (String × FileRecord)) (init : JsNum),
    (∃ e ∈ l, e.2.isDup = true) →
    l.foldl (fun acc e => jsAddSize acc e.2.compressedSizeO) init = .nan := by
  intro l
  induction l with
  | nil => intro init h; simp at h
  | cons e rest ih =>
    intro init h
    rcases h with ⟨f, hf, hdup⟩
    rcases List.mem_cons.mp hf with heq | hmem
    · subst heq
      have hnone : f.2.compressedSizeO = none := by
        cases hrec : f.2 <;> simp [FileRecord.isDup, hrec] at hdup ⊢ <;>
          simp [FileRecord.compressedSizeO]
      have hstep : jsAddSize init f.2.compressedSizeO = .nan := by
        rw [hnone]; cases init <;> rfl
      simp only [List.foldl, hstep, foldSizes_from_nan]
    · rw [List.foldl_cons]
      exact ih _ ⟨f, hmem, hdup⟩

theorem jsDiv_nan_left (x : JsNum) : jsDiv .nan x = .nan := by
  cases x <;> rfl

/-- The archive an `.ok` result of `compressDirectory` always is: the built
file map with its derived metadata. -/
theorem compressDirectory_ok_shape (codec : Codec) (opts : Opts) (va : Bool)
    (files : List (String × Option Bytes)) (a : Archive)
    (hok : compressDirectory codec opts va files = .ok a) :
    a = ⟨createCompressionMetadata files (compressFiles codec opts files).fileMap,
      (compressFiles codec opts files).fileMap⟩ := by
  unfold compressDirectory at hok
  cases va with
  | false =>
    simp only [Bool.false_eq_true, if_false, Except.ok.injEq] at hok
    exact hok.symm
  | true =>
    simp only [if_true] at hok
    split at hok
    · simp only [Except.ok.injEq] at hok
      exact hok.symm
    · cases hok

/-- Claim C10: in every build whose archive contains a `Duplicate` record,
`metadata.totalCompressedSize` is NaN (duplicate records carry no
`compressedSize` field, and the aggregation sums `compressedSize` over all
records), and hence `overallCompressionRatio` is not a finite number. -/
theorem claim_c10_duplicate_nan (codec : Codec) (opts : Opts) (va : Bool)
    (files : List (String × Option Bytes)) (a : Archive)
    (hok : compressDirectory codec opts va files = .ok a)
    (hdup : ∃ e ∈ a.files, e.2.isDup = true) :
    a.metadata.totalCompressedSize = .nan ∧ ∀ q : ℚ, a.metadata.ratioPercent ≠ .num q := by
  have ha := compressDirectory_ok_shape codec opts va files a hok
  subst ha
  have htcs : ((compressFiles codec opts files).fileMap.foldl
      (fun acc e => jsAddSize acc e.2.compressedSizeO) (.num 0)) = .nan :=
    foldSizes_dup _ _ hdup
  constructor
  · simpa [createCompressionMetadata] using htcs
  · intro q
    simp only [createCompressionMetadata, htcs, jsDiv_nan_left, jsMul100]
    intro hcon
    cases hcon

/-- C10 witness: the concrete two-identical-files build has a duplicate record
and NaN compressed-size metadata. -/
theorem claim_c10_witness :
    compressDirectory idCodec ⟨9, true, false⟩ false c10ex = .ok c10arch ∧
    ("b.bin", FileRecord.duplicate "a.bin" [0] 1) ∈ c10arch.files ∧
    c10arch.metadata.totalCompressedSize = .nan ∧
    c10arch.metadata.ratioPercent ≠ .num 0 := by
  have hd : ∃ e ∈ c10arch.files, e.2.isDup = true :=
    ⟨("b.bin", FileRecord.duplicate "a.bin" [0] 1), by decide, rfl⟩
  have main := claim_c10_duplicate_nan idCodec ⟨9, true, false⟩ false c10ex c10arch rfl hd
  exact ⟨rfl, by decide, main.1, main.2 0⟩

/-- Claim C2 (code bug): on the input `a.txt = "a \n"` with default options,
the built archive retains a Standard record whose payload decompresses to the
normalized bytes `"a\n"`, whose hash differs from the stored `originalHash`
(the hash of the raw bytes); the record's own validation fails with the
source's hash-mismatch error, yet the build succeeds and keeps the record. -/
theorem claim_c2_record_invariant_bug :
    (∃ md, compressDirectory idCodec defaultOpts true c2input =
      .ok ⟨md, [("a.txt", FileRecord.standard [97, 10] [97, 32, 10] 3 2)]⟩) ∧
    validateFileCompression idCodec (FileRecord.standard [97, 10] [97, 32, 10] 3 2) [97, 32, 10]
      = .error "Compression validation failed: Hash mismatch after compression" ∧
    calculateHash (.buf (idCodec.decompress [97, 10]))
      ≠ (FileRecord.standard [97, 10] [97, 32, 10] 3 2).originalHash := by
  refine ⟨⟨_, rfl⟩, by decide, by decide⟩

/-- Claim C5 counterexample: two binary files with different raw bytes hash
equal, so the hash is not computed over the exact byte sequence (binary
buffers are `toString()`-decoded before hashing, which is lossy). -/
theorem claim_c5_counterexample :
    calculateHash (.buf [255]) = calculateHash (.buf [254]) ∧ ([255] : Bytes) ≠ [254] := by
  decide

/-- Claim C5 as amended: the hash is deterministic and is computed over the
UTF-8 re-encoding of the content decoded as UTF-8; for strings this is the raw
encoded text, and for byte sequences that are valid UTF-8 it coincides with a
digest of the raw bytes — but not for arbitrary binary bytes. -/
theorem claim_c5_amended_hash :
    (∀ s : JsStr, calculateHash (.str s) = sha256Digest (utf8Encode s)) ∧
    (∀ b : Bytes, utf8Encode (utf8Decode b) = b → calculateHash (.buf b) = sha256Digest b) := by
  constructor
  · intro s; rfl
  · intro b h
    exact congrArg sha256Digest h

/-- C5 witness: a concrete valid-UTF-8 buffer is hashed over its raw bytes. -/
theorem claim_c5_witness :
    utf8Encode (utf8Decode [104, 105]) = [104, 105] ∧
    calculateHash (.buf [104, 105]) = sha256Digest [104, 105] :=
  ⟨by decide, claim_c5_amended_hash.2 [104, 105] (by decide)⟩

/-- Claim C6 counterexample: a per-file read failure is skipped, but with the
default post-build validation the whole build then fails on the file-count
mismatch — the failure is fatal to the build, contrary to the claim. -/
theorem claim_c6_counterexample :
    compressDirectory idCodec defaultOpts true c6input =
      .error "Compression failed: Validation failed: File count mismatch" := by
  decide

/-- Claim C3 counterexample: with default options (delta compression on), two
identical text files whose content is changed by normalization produce the
expected Duplicate record, but extraction fails on the reference file's hash
mismatch, so extraction does not produce content for either path. -/
theorem claim_c3_counterexample :
    (compressDirectory idCodec defaultOpts true c3input).toOption.map Archive.files =
      some [("a.txt", FileRecord.standard [97, 10] [97, 32, 10] 3 2),
            ("b.txt", FileRecord.duplicate "a.txt" [97, 32, 10] 3)] ∧
    (compressDirectory idCodec defaultOpts true c3input).toOption.map
        (fun a => decompressArchive idCodec a) =
      some (.error ("Extraction validation failed for: " ++ "a.txt")) := by
  exact ⟨rfl, rfl⟩

/-- Claim C9: `compressDirectory` on an existing empty directory does not
throw and produces an archive whose `metadata.fileCount` is 0. -/
theorem claim_c9_empty_directory (codec : Codec) (opts : Opts) :
    ∃ a, compressDirectory codec opts true ([] : List (String × Option Bytes)) = .ok a ∧
      a.metadata.fileCount = 0 :=
  ⟨_, rfl, rfl⟩


theorem lookupA_mapSet {α β : Type} [DecidableEq α] (m : List (α × β)) (k : α) (v : β)
    (a : α) :
    lookupA (mapSet m k v) a = if a = k then some v else lookupA m a := by
  induction m with
  | nil =>
    simp only [mapSet, lookupA]
    by_cases h : a = k
    · subst h; simp
    · rw [if_neg (fun hh => h hh.symm), if_neg h]
  | cons e rest ih =>
    obtain ⟨k1, v1⟩ := e
    simp only [mapSet]
    by_cases h1 : k1 = k
    · subst h1
      simp only [if_pos rfl, lookupA]
      by_cases h2 : k1 = a
      · subst h2
        simp
      · rw [if_neg h2, if_neg (fun hh => h2 hh.symm), if_neg h2]
    · rw [if_neg h1]
      simp only [lookupA]
      by_cases h2 : k1 = a
      · subst h2
        rw [if_pos rfl, if_neg h1, if_pos rfl]
      · rw [if_neg h2, if_neg h2, ih]

theorem lookupA_eq_none_iff {α β : Type} [DecidableEq α] (m : List (α × β)) (a : α) :
    lookupA m a = none ↔ a ∉ m.map Prod.fst := by
  induction m with
  | nil => simp [lookupA]
  | cons e rest ih =>
    obtain ⟨k1, v1⟩ := e
    simp only [lookupA, List.map_cons, List.mem_cons]
    by_cases h : k1 = a
    · subst h
      simp
    · rw [if_neg h]
      rw [ih]
      constructor
      · intro hna hor
        rcases hor with hor | hor
        · exact h hor.symm
        · exact hna hor
      · intro hno
        intro hmem
        exact hno (Or.inr hmem)

theorem mapSet_append_of_none {α β : Type} [DecidableEq α] (m : List (α × β)) (k : α) (v : β)
    (h : lookupA m k = none) : mapSet m k v = m ++ [(k, v)] := by
  induction m with
  | nil => rfl
  | cons e rest ih =>
    obtain ⟨k1, v1⟩ := e
    simp only [lookupA] at h
    by_cases h1 : k1 = k
    · simp [h1] at h
    · simp only [h1, if_false] at h
      simp [mapSet, h1, ih h]

theorem lookupA_append {α β : Type} [DecidableEq α] (m1 m2 : List (α × β)) (a : α) :
    lookupA (m1 ++ m2) a =
      match lookupA m1 a with
      | some v => some v
      | none => lookupA m2 a := by
  induction m1 with
  | nil => simp [lookupA]
  | cons e rest ih =>
    obtain ⟨k1, v1⟩ := e
    by_cases h : k1 = a <;> simp [lookupA, h, ih]

theorem lookupA_mem {α β : Type} [DecidableEq α] (m : List (α × β)) (a : α) (v : β)
    (h : lookupA m a = some v) : (a, v) ∈ m := by
  induction m with
  | nil => simp [lookupA] at h
  | cons e rest ih =>
    obtain ⟨k1, v1⟩ := e
    rw [lookupA] at h
    by_cases h1 : k1 = a
    · rw [if_pos h1] at h
      injection h with hv
      subst h1
      subst hv
      exact List.mem_cons_self _ _
    · rw [if_neg h1] at h
      exact List.mem_cons_of_mem _ (ih h)

theorem append_singleton_decomp {α : Type} (l : List α) (x : α) (m1 : List α) (y : α)
    (m2 : List α) (h : l ++ [x] = m1 ++ y :: m2) :
    (∃ m2a, m2 = m2a ++ [x] ∧ l = m1 ++ y :: m2a) ∨ (m1 = l ∧ y = x ∧ m2 = []) := by
  induction m2 using List.reverseRecOn with
  | nil =>
    right
    have h2 := List.append_inj' h rfl
    refine ⟨h2.1.symm, ?_, rfl⟩
    exact ((List.cons.injEq y [] x []).mp h2.2.symm).1
  | append_singleton m2a xa _ =>
    left
    rw [show m1 ++ y :: (m2a ++ [xa]) = (m1 ++ y :: m2a) ++ [xa] by simp] at h
    have := List.append_inj' h rfl
    obtain ⟨h1, h2⟩ := this
    have hx : x = xa := by
      have := (List.cons.injEq x [] xa []).mp h2
      exact this.1
    exact ⟨m2a, by rw [hx], h1⟩

theorem goodKeys_append (a b : List (String × Option Bytes)) :
    goodKeys (a ++ b) = goodKeys a ++ goodKeys b := by
  induction a with
  | nil => simp [goodKeys]
  | cons f rest ih =>
    obtain ⟨p, d⟩ := f
    cases d <;> simp [goodKeys, ih]

theorem firstGood_append (a b : List (String × Option Bytes)) (h : Bytes) :
    firstGood (a ++ b) h =
      match firstGood a h with
      | some r => some r
      | none => firstGood b h := by
  induction a with
  | nil => simp [firstGood]
  | cons f rest ih =>
    obtain ⟨p, d⟩ := f
    cases d with
    | none => simp [firstGood, ih]
    | some bb =>
      by_cases hh : hashBuf bb = h <;> simp [firstGood, hh, ih]


theorem hashBuf_def (b : Bytes) : hashBuf b = calculateHash (.buf b) := rfl

theorem compressFile_some_state (codec : Codec) (opts : Opts) (p : String) (b : Bytes)
    (st : BState) :
    ∃ rcd : FileRecord,
      (compressFile codec opts p (some b) st).1.fileMap = mapSet st.fileMap p rcd ∧
      (compressFile codec opts p (some b) st).1.fileHashes =
        (if opts.dedup = true ∧ lookupA st.fileHashes (hashBuf b) = none
         then mapSet st.fileHashes (hashBuf b) p else st.fileHashes) ∧
      rcd.originalHash = hashBuf b ∧
      rcd.originalSize = b.length ∧
      ((if opts.dedup then lookupA st.fileHashes (hashBuf b) else none) = none →
        rcd.isDup = false) ∧
      (∀ ref, (if opts.dedup then lookupA st.fileHashes (hashBuf b) else none) = some ref →
        rcd = .duplicate ref (hashBuf b) b.length) ∧
      (opts.delta = false →
        (if opts.dedup then lookupA st.fileHashes (hashBuf b) else none) = none →
        rcd = .standard (codec.compress opts.level (encBytes p b)) (hashBuf b) b.length
          (codec.compress opts.level (encBytes p b)).length) := by
  simp only [hashBuf_def, compressFile]
  cases hdd : (if opts.dedup then lookupA st.fileHashes (calculateHash (.buf b)) else none) with
  | some ref =>
    refine ⟨.duplicate ref (calculateHash (.buf b)) b.length, rfl, ?_, rfl, rfl, ?_, ?_, ?_⟩
    · have hcond : ¬(opts.dedup = true ∧
          lookupA st.fileHashes (calculateHash (.buf b)) = none) := by
        rintro ⟨hd, hl⟩
        rw [hd, hl] at hdd
        simp at hdd
      rw [if_neg hcond]
    · intro h; simp at h
    · intro r hr
      injection hr with hr2
      rw [hr2]
    · intro _ h; simp at h
  | none =>
    dsimp only
    have HSH : (if opts.dedup = true ∧ lookupA st.fileHashes (calculateHash (.buf b)) = none
         then mapSet st.fileHashes (calculateHash (.buf b)) p else st.fileHashes) =
        (if opts.dedup = true then mapSet st.fileHashes (calculateHash (.buf b)) p
         else st.fileHashes) := by
      by_cases hd : opts.dedup = true
      · rw [hd] at hdd
        simp only [if_pos rfl] at hdd
        rw [if_pos ⟨hd, hdd⟩, hd, if_pos rfl]
      · rw [if_neg (by rintro ⟨h1, _⟩; exact hd h1), if_neg hd]
    rw [HSH]
    by_cases ht : isTextFile p = true
    · simp only [if_pos ht]
      by_cases hdl : opts.delta = true
      · simp only [if_pos hdl]
        cases htr : (tryDictionaryCompression codec opts.level
            (applyTextOptimizations (utf8Decode b)) p st.fileGroups).2 with
        | none =>
          refine ⟨.standard (codec.compress opts.level
              (utf8Encode (applyTextOptimizations (utf8Decode b))))
              (calculateHash (.buf b)) b.length
              (codec.compress opts.level
                (utf8Encode (applyTextOptimizations (utf8Decode b)))).length,
            ?_, trivial, rfl, rfl, fun _ => rfl, ?_, ?_⟩
          · simp only [htr]
          · intro r hr; simp at hr
          · intro hdf; simp [hdf] at hdl
        | some pr =>
          obtain ⟨bc, dict⟩ := pr
          by_cases hlt : bc.length < (codec.compress opts.level
              (utf8Encode (applyTextOptimizations (utf8Decode b)))).length
          · refine ⟨.dictionary bc (calculateHash (.buf b)) b.length bc.length dict,
              ?_, trivial, rfl, rfl, fun _ => rfl, ?_, ?_⟩
            · simp only [htr, if_pos hlt]
            · intro r hr; simp at hr
            · intro hdf; simp [hdf] at hdl
          · refine ⟨.standard (codec.compress opts.level
                (utf8Encode (applyTextOptimizations (utf8Decode b))))
                (calculateHash (.buf b)) b.length
                (codec.compress opts.level
                  (utf8Encode (applyTextOptimizations (utf8Decode b)))).length,
              ?_, trivial, rfl, rfl, fun _ => rfl, ?_, ?_⟩
            · simp only [htr, if_neg hlt]
            · intro r hr; simp at hr
            · intro hdf; simp [hdf] at hdl
      · simp only [if_neg hdl]
        refine ⟨.standard (codec.compress opts.level (utf8Encode (utf8Decode b)))
            (calculateHash (.buf b)) b.length
            (codec.compress opts.level (utf8Encode (utf8Decode b))).length,
          rfl, trivial, rfl, rfl, fun _ => rfl, ?_, ?_⟩
        · intro r hr; simp at hr
        · intro _ _
          unfold encBytes
          rw [if_pos ht]
    · simp only [if_neg ht]
      refine ⟨.standard (codec.compress opts.level b) (calculateHash (.buf b)) b.length
          (codec.compress opts.level b).length,
        rfl, trivial, rfl, rfl, fun _ => rfl, ?_, ?_⟩
      · intro r hr; simp at hr
      · intro _ _
        unfold encBytes
        rw [if_neg ht]


theorem firstGood_snoc (pre : List (String × Option Bytes)) (p : String) (b : Bytes)
    (h0 : Bytes) :
    firstGood (pre ++ [(p, some b)]) h0 =
      match firstGood pre h0 with
      | some r => some r
      | none => if hashBuf b = h0 then some p else none := by
  rw [firstGood_append]
  cases firstGood pre h0 <;> simp [firstGood]

theorem buildInv_init (codec : Codec) (opts : Opts) : BuildInv codec opts [] initState := by
  refine ⟨rfl, ?_, fun _ => rfl, ?_, ?_, ?_, ?_⟩
  · intro _ h; rfl
  · intro hq hmem; simp [initState] at hmem
  · intro m1 q rcd m2 heq; simp [initState] at heq
  · intro q b hmem; simp at hmem
  · intro _ pre1 q b post1 heq; simp at heq

theorem buildInv_step (codec : Codec) (opts : Opts) (pre : List (String × Option Bytes))
    (st : BState) (f : String × Option Bytes)
    (hfresh : ∀ b, f.2 = some b → f.1 ∉ goodKeys pre)
    (hinv : BuildInv codec opts pre st) :
    BuildInv codec opts (pre ++ [f]) (stepState codec opts st f) := by
  obtain ⟨hK, hH, hH0, hJ2, hJ3, hR, hRc⟩ := hinv
  obtain ⟨p, d⟩ := f
  cases d with
  | none =>
    have hstep : stepState codec opts st (p, none) = st := rfl
    rw [hstep]
    refine ⟨?_, ?_, hH0, hJ2, hJ3, ?_, ?_⟩
    · rw [hK, goodKeys_append]
      simp [goodKeys]
    · intro hd h0
      rw [hH hd h0, firstGood_append]
      cases hfg : firstGood pre h0 <;> simp [firstGood]
    · intro q b hmem
      rcases List.mem_append.mp hmem with hm | hm
      · exact hR q b hm
      · simp at hm
    · intro hdelta pre1 q b post1 heq
      rcases append_singleton_decomp pre (p, none) pre1 (q, some b) post1 heq with
        ⟨post1a, _, hmain⟩ | ⟨_, h2, _⟩
      · exact hRc hdelta pre1 q b post1a hmain
      · exact absurd (congrArg Prod.snd h2) (by simp)
  | some b =>
    obtain ⟨rcd, hmap, hsh, hOH, hOS, hND, hDup, hStd⟩ :=
      compressFile_some_state codec opts p b st
    have hfr : p ∉ goodKeys pre := hfresh b rfl
    have hfrK : lookupA st.fileMap p = none := by
      rw [lookupA_eq_none_iff, hK]
      exact hfr
    have hmap2 : (stepState codec opts st (p, some b)).fileMap = st.fileMap ++ [(p, rcd)] := by
      show (compressFile codec opts p (some b) st).1.fileMap = _
      rw [hmap, mapSet_append_of_none _ _ _ hfrK]
    have hshs : (stepState codec opts st (p, some b)).fileHashes =
        (if opts.dedup = true ∧ lookupA st.fileHashes (hashBuf b) = none
         then mapSet st.fileHashes (hashBuf b) p else st.fileHashes) := hsh
    refine ⟨?_, ?_, ?_, ?_, ?_, ?_, ?_⟩
    · rw [hmap2, List.map_append, hK, goodKeys_append]
      simp [goodKeys]
    · intro hd h0
      rw [firstGood_snoc]
      by_cases hl : lookupA st.fileHashes (hashBuf b) = none
      · rw [hshs, if_pos ⟨hd, hl⟩, lookupA_mapSet]
        have hfgb : firstGood pre (hashBuf b) = none := by rw [← hH hd]; exact hl
        by_cases he : h0 = hashBuf b
        · rw [if_pos he, he, hfgb]
          simp
        · rw [if_neg he, hH hd h0]
          cases hfg : firstGood pre h0 with
          | some r => simp
          | none => rw [if_neg (fun hc => he hc.symm)]
      · rw [hshs, if_neg (by rintro ⟨_, hc⟩; exact hl hc), hH hd h0]
        cases hfg : firstGood pre h0 with
        | some r => simp
        | none =>
          rw [if_neg ?_]
          intro hc
          exact hl (by rw [hH hd, hc]; exact hfg)
    · intro hd0
      rw [hshs, if_neg (by rintro ⟨hc, _⟩; rw [hd0] at hc; cases hc)]
      exact hH0 hd0
    · intro hq hmem
      rw [hshs] at hmem
      rw [hmap2]
      by_cases hc : opts.dedup = true ∧ lookupA st.fileHashes (hashBuf b) = none
      · rw [if_pos hc, mapSet_append_of_none _ _ _ hc.2] at hmem
        rcases List.mem_append.mp hmem with hm | hm
        · obtain ⟨rcd2, hl2, hnd2, hh2⟩ := hJ2 hq hm
          refine ⟨rcd2, ?_, hnd2, hh2⟩
          rw [lookupA_append, hl2]
        · have hqe : hq = (hashBuf b, p) := List.mem_singleton.mp hm
          subst hqe
          refine ⟨rcd, ?_, ?_, hOH⟩
          · rw [lookupA_append, hfrK]
            simp [lookupA]
          · refine hND ?_
            by_cases hd : opts.dedup = true
            · rw [if_pos hd]; exact hc.2
            · rw [if_neg hd]
      · rw [if_neg hc] at hmem
        obtain ⟨rcd2, hl2, hnd2, hh2⟩ := hJ2 hq hmem
        refine ⟨rcd2, ?_, hnd2, hh2⟩
        rw [lookupA_append, hl2]
    · intro m1 q rcd0 m2 heq ref h0 sz hdup0
      rw [hmap2] at heq
      rcases append_singleton_decomp _ _ _ _ _ heq with ⟨m2a, _, hmain⟩ | ⟨hm1, hqe, _⟩
      · exact hJ3 m1 q rcd0 m2a hmain ref h0 sz hdup0
      · injection hqe with hq1 hq2
        subst hm1
        subst hq2
        cases hscr : (if opts.dedup = true then lookupA st.fileHashes (hashBuf b) else none) with
        | none =>
          have hfalse := hND hscr
          rw [hdup0] at hfalse
          simp [FileRecord.isDup] at hfalse
        | some ref1 =>
          have hrdup := hDup ref1 hscr
          rw [hrdup] at hdup0
          injection hdup0 with e1 e2 e3
          have hlk : lookupA st.fileHashes (hashBuf b) = some ref1 := by
            by_cases hd : opts.dedup = true
            · rw [if_pos hd] at hscr; exact hscr
            · rw [if_neg hd] at hscr; cases hscr
          obtain ⟨rcd2, hl2, hnd2, hh2⟩ := hJ2 (hashBuf b, ref1) (lookupA_mem _ _ _ hlk)
          exact ⟨rcd2, by rw [← e1]; exact hl2, hnd2, by rw [← e2]; exact hh2⟩
    · intro q b0 hmem
      rcases List.mem_append.mp hmem with hm | hm
      · obtain ⟨rcd2, hl2, hh2, hs2⟩ := hR q b0 hm
        refine ⟨rcd2, ?_, hh2, hs2⟩
        rw [hmap2, lookupA_append, hl2]
      · have hqe := List.mem_singleton.mp hm
        injection hqe with hq1 hq2
        injection hq2 with hq2
        subst hq1
        subst hq2
        refine ⟨rcd, ?_, hOH, hOS⟩
        rw [hmap2, lookupA_append, hfrK]
        simp [lookupA]
    · intro hdelta pre1 q b0 post1 heq
      rcases append_singleton_decomp pre (p, some b) pre1 (q, some b0) post1 heq with
        ⟨post1a, _, hmain⟩ | ⟨h1, h2, _⟩
      · have hold := hRc hdelta pre1 q b0 post1a hmain
        rw [hmap2, lookupA_append, hold]
      · injection h2 with hq1 hq2
        injection hq2 with hq2
        subst h1
        subst hq1
        subst hq2
        rw [hmap2, lookupA_append, hfrK]
        simp only [lookupA, if_pos rfl]
        unfold recordAt
        have hscr_eq : (if opts.dedup = true then firstGood pre1 (hashBuf b0) else none)
            = (if opts.dedup = true then lookupA st.fileHashes (hashBuf b0) else none) := by
          by_cases hd : opts.dedup = true
          · rw [if_pos hd, if_pos hd, hH hd]
          · rw [if_neg hd, if_neg hd]
        rw [hscr_eq]
        cases hscr : (if opts.dedup = true then lookupA st.fileHashes (hashBuf b0) else none) with
        | some ref1 =>
          rw [hDup ref1 hscr]
          simp
        | none =>
          rw [hStd hdelta hscr]
          simp

theorem buildInv_fold (codec : Codec) (opts : Opts) :
    ∀ (files pre : List (String × Option Bytes)) (st : BState),
    (goodKeys (pre ++ files)).Nodup → BuildInv codec opts pre st →
    BuildInv codec opts (pre ++ files) (files.foldl (stepState codec opts) st) := by
  intro files
  induction files with
  | nil =>
    intro pre st _ hinv
    simpa using hinv
  | cons f rest ih =>
    intro pre st hnd hinv
    rw [List.foldl_cons]
    have hassoc : pre ++ f :: rest = (pre ++ [f]) ++ rest := by simp
    rw [hassoc] at hnd ⊢
    refine ih (pre ++ [f]) (stepState codec opts st f) hnd ?_
    refine buildInv_step codec opts pre st f ?_ hinv
    intro b hb hcon
    have hnd1 : (goodKeys (pre ++ [f])).Nodup := by
      rw [goodKeys_append] at hnd
      exact (List.nodup_append.mp hnd).1
    rw [goodKeys_append] at hnd1
    obtain ⟨_, _, hdisj⟩ := List.nodup_append.mp hnd1
    refine hdisj hcon ?_
    obtain ⟨p, dd⟩ := f
    simp only at hb
    rw [hb]
    simp [goodKeys]

theorem buildInv_all (codec : Codec) (opts : Opts) (files : List (String × Option Bytes))
    (hnd : (goodKeys files).Nodup) :
    BuildInv codec opts files (compressFiles codec opts files) := by
  have h := buildInv_fold codec opts files [] initState (by simpa using hnd)
    (buildInv_init codec opts)
  simpa [compressFiles] using h


theorem fresh_of_nodup (pre : List (String × Option Bytes)) (f : String × Option Bytes)
    (rest : List (String × Option Bytes))
    (hnd : (goodKeys ((pre ++ [f]) ++ rest)).Nodup) :
    ∀ b, f.2 = some b → f.1 ∉ goodKeys pre := by
  intro b hb hcon
  have hnd1 : (goodKeys (pre ++ [f])).Nodup := by
    rw [goodKeys_append] at hnd
    exact (List.nodup_append.mp hnd).1
  rw [goodKeys_append] at hnd1
  obtain ⟨_, _, hdisj⟩ := List.nodup_append.mp hnd1
  refine hdisj hcon ?_
  obtain ⟨p, dd⟩ := f
  simp only at hb
  rw [hb]
  simp [goodKeys]

theorem foldOrig_num (m : List (String × FileRecord)) (q : ℚ) :
    m.foldl (fun acc e => jsAddSize acc (some e.2.originalSize)) (.num q)
      = .num (q + ((m.map (fun e => e.2.originalSize)).sum : ℕ)) := by
  induction m generalizing q with
  | nil => simp [List.foldl]
  | cons e rest ih =>
    rw [List.foldl_cons]
    show (rest.foldl _ (jsAddSize (.num q) (some e.2.originalSize))) = _
    rw [show jsAddSize (.num q) (some e.2.originalSize)
        = .num (q + e.2.originalSize) from rfl, ih]
    congr 1
    simp only [List.map_cons, List.sum_cons]
    push_cast
    ring

theorem build_sizes (codec : Codec) (opts : Opts) :
    ∀ (files pre : List (String × Option Bytes)) (st : BState),
    (goodKeys (pre ++ files)).Nodup → BuildInv codec opts pre st →
    ((files.foldl (stepState codec opts) st).fileMap.map (fun e => e.2.originalSize)).sum
      = (st.fileMap.map (fun e => e.2.originalSize)).sum + (goodSizes files).sum := by
  intro files
  induction files with
  | nil =>
    intro pre st _ _
    simp [goodSizes]
  | cons f rest ih =>
    intro pre st hnd hinv
    rw [List.foldl_cons]
    have hassoc : pre ++ f :: rest = (pre ++ [f]) ++ rest := by simp
    rw [hassoc] at hnd
    have hfresh := fresh_of_nodup pre f rest hnd
    have hstepinv := buildInv_step codec opts pre st f hfresh hinv
    have ihres := ih (pre ++ [f]) (stepState codec opts st f) hnd hstepinv
    rw [ihres]
    obtain ⟨p, d⟩ := f
    cases d with
    | none =>
      have hstep : stepState codec opts st (p, none) = st := rfl
      rw [hstep]
      simp [goodSizes]
    | some b =>
      obtain ⟨rcd, hmap, _, _, hOS, _, _, _⟩ := compressFile_some_state codec opts p b st
      have hfrK : lookupA st.fileMap p = none := by
        rw [lookupA_eq_none_iff, hinv.1]
        exact hfresh b rfl
      have hmap2 : (stepState codec opts st (p, some b)).fileMap
          = st.fileMap ++ [(p, rcd)] := by
        show (compressFile codec opts p (some b) st).1.fileMap = _
        rw [hmap, mapSet_append_of_none _ _ _ hfrK]
      rw [hmap2]
      simp only [List.map_append, List.sum_append, List.map_cons, List.map_nil,
        List.sum_cons, List.sum_nil, goodSizes, hOS]
      omega

theorem goodKeys_asInput (tree : List (String × Bytes)) :
    goodKeys (asInput tree) = tree.map Prod.fst := by
  induction tree with
  | nil => rfl
  | cons f rest ih => simp [asInput, goodKeys] at ih ⊢; exact ih

theorem goodSizes_asInput (tree : List (String × Bytes)) :
    goodSizes (asInput tree) = tree.map (fun f => f.2.length) := by
  induction tree with
  | nil => rfl
  | cons f rest ih => simp [asInput, goodSizes] at ih ⊢; exact ih

theorem goodKeys_sublist (files : List (String × Option Bytes)) :
    (goodKeys files).Sublist (files.map Prod.fst) := by
  induction files with
  | nil => simp [goodKeys]
  | cons f rest ih =>
    obtain ⟨p, d⟩ := f
    cases d with
    | none =>
      show (goodKeys rest).Sublist (p :: rest.map Prod.fst)
      exact ih.cons p
    | some b =>
      show (p :: goodKeys rest).Sublist (p :: rest.map Prod.fst)
      exact ih.cons₂ p

theorem nodup_keys_unique (files : List (String × Option Bytes)) (p : String)
    (x y : Option Bytes) (hnd : (files.map Prod.fst).Nodup)
    (hx : (p, x) ∈ files) (hy : (p, y) ∈ files) : x = y := by
  induction files with
  | nil => simp at hx
  | cons f rest ih =>
    rw [List.map_cons, List.nodup_cons] at hnd
    obtain ⟨hnotin, hnd2⟩ := hnd
    rcases List.mem_cons.mp hx with hx1 | hx2
    · rcases List.mem_cons.mp hy with hy1 | hy2
      · exact congrArg Prod.snd (hx1.trans hy1.symm)
      · exfalso
        apply hnotin
        rw [← hx1]
        exact List.mem_map.mpr ⟨(p, y), hy2, rfl⟩
    · rcases List.mem_cons.mp hy with hy1 | hy2
      · exfalso
        apply hnotin
        rw [← hy1]
        exact List.mem_map.mpr ⟨(p, x), hx2, rfl⟩
      · exact ih hnd2 hx2 hy2

theorem mem_goodKeys (files : List (String × Option Bytes)) (p : String)
    (h : p ∈ goodKeys files) : ∃ b, (p, some b) ∈ files := by
  induction files with
  | nil => simp [goodKeys] at h
  | cons f rest ih =>
    obtain ⟨q, d⟩ := f
    cases d with
    | none =>
      obtain ⟨b, hb⟩ := ih h
      exact ⟨b, List.mem_cons_of_mem _ hb⟩
    | some b0 =>
      rcases List.mem_cons.mp h with h1 | h2
      · exact ⟨b0, by rw [h1]; exact List.mem_cons_self _ _⟩
      · obtain ⟨b, hb⟩ := ih h2
        exact ⟨b, List.mem_cons_of_mem _ hb⟩

/-- Claim C4: in every built archive no Duplicate record references another
Duplicate, and every Duplicate's reference path resolves to a non-Duplicate
record present in the same archive's files mapping (with the same stored
hash). -/
theorem claim_c4_duplicate_chain_safety (codec : Codec) (opts : Opts) (va : Bool)
    (files : List (String × Option Bytes)) (hnd : (goodKeys files).Nodup)
    (a : Archive) (hok : compressDirectory codec opts va files = .ok a)
    (p ref : String) (h : Bytes) (sz : Nat)
    (hmem : (p, FileRecord.duplicate ref h sz) ∈ a.files) :
    ∃ rcd2, lookupA a.files ref = some rcd2 ∧ rcd2.isDup = false ∧
      rcd2.originalHash = h := by
  have ha := compressDirectory_ok_shape codec opts va files a hok
  subst ha
  obtain ⟨_, _, _, _, hJ3, _, _⟩ := buildInv_all codec opts files hnd
  obtain ⟨m1, m2, hdec⟩ := List.append_of_mem hmem
  have hdec2 : (compressFiles codec opts files).fileMap
      = m1 ++ (p, FileRecord.duplicate ref h sz) :: m2 := hdec
  obtain ⟨rcd2, hl, hnd2, hh2⟩ := hJ3 m1 p _ m2 hdec2 ref h sz rfl
  refine ⟨rcd2, ?_, hnd2, hh2⟩
  show lookupA (compressFiles codec opts files).fileMap ref = some rcd2
  rw [hdec2, lookupA_append, hl]

/-- C4 witness: the concrete duplicate-producing build resolves its duplicate
reference. -/
theorem claim_c4_witness :
    (goodKeys c4ex).Nodup ∧ lookupA c4arch.files "a.bin" ≠ none := by
  have happ := claim_c4_duplicate_chain_safety idCodec ⟨9, true, false⟩ false c4ex
    (by decide) c4arch rfl "b.bin" "a.bin" [0] 1 (by decide)
  obtain ⟨rcd2, hl, _, _⟩ := happ
  refine ⟨by decide, ?_⟩
  rw [hl]
  simp

/-- Claim C6 as amended: a per-file read failure is logged and the file is
skipped (it gets no record), while a post-compression hash-mismatch failure
leaves the already-assigned record in the archive (the file is not skipped);
with post-build validation disabled the build always succeeds and produces an
archive.  With the default validation enabled, a skipped file makes the whole
build fail the file-count check (see the counterexample). -/
theorem claim_c6_per_file_failures (codec : Codec) (opts : Opts)
    (files : List (String × Option Bytes)) (hnd : (files.map Prod.fst).Nodup) :
    ∃ a, compressDirectory codec opts false files = .ok a ∧
      (∀ p, (p, (none : Option Bytes)) ∈ files → lookupA a.files p = none) ∧
      (∀ p b, (p, some b) ∈ files → ∃ rcd, lookupA a.files p = some rcd) := by
  have hndg : (goodKeys files).Nodup := (goodKeys_sublist files).nodup hnd
  obtain ⟨hK, _, _, _, _, hR, _⟩ := buildInv_all codec opts files hndg
  refine ⟨_, rfl, ?_, ?_⟩
  · intro p hp
    show lookupA (compressFiles codec opts files).fileMap p = none
    rw [lookupA_eq_none_iff, hK]
    intro hmem
    obtain ⟨b, hb⟩ := mem_goodKeys files p hmem
    have := nodup_keys_unique files p none (some b) hnd hp hb
    cases this
  · intro p b hpb
    obtain ⟨rcd, hl, _, _⟩ := hR p b hpb
    exact ⟨rcd, hl⟩

/-- C6 witness: concretely, the unreadable file is skipped while the readable
file whose self-validation fails keeps its record, and the build succeeds with
validation disabled. -/
theorem claim_c6_witness :
    (c6wex.map Prod.fst).Nodup ∧
    (compressDirectory idCodec defaultOpts false c6wex).toOption.map
        (fun a => (lookupA a.files "b.bin", (lookupA a.files "a.txt").isSome))
      = some (none, true) := by
  obtain ⟨a, hok, hskip, hrec⟩ :=
    claim_c6_per_file_failures idCodec defaultOpts c6wex (by decide)
  refine ⟨by decide, ?_⟩
  rw [hok]
  have h1 := hskip "b.bin" (by decide)
  obtain ⟨rcd, h2⟩ := hrec "a.txt" [97, 32, 10] (by decide)
  show some (lookupA a.files "b.bin", (lookupA a.files "a.txt").isSome) = some (none, true)
  rw [h1, h2]
  rfl

/-- Claim C7: when every enumerated file is recorded (all reads succeed and
paths are distinct), `metadata.totalOriginalSize` — the sum of `originalSize`
over all records, duplicates included — equals the sum of the on-disk byte
sizes of all files of the tree. -/
theorem claim_c7_size_accounting (codec : Codec) (opts : Opts) (va : Bool)
    (tree : List (String × Bytes)) (hnd : (tree.map Prod.fst).Nodup)
    (a : Archive) (hok : compressDirectory codec opts va (asInput tree) = .ok a) :
    a.metadata.totalOriginalSize = .num ((tree.map (fun f => f.2.length)).sum : ℕ) := by
  have ha := compressDirectory_ok_shape codec opts va (asInput tree) a hok
  subst ha
  have hndg : (goodKeys (asInput tree)).Nodup := by
    rw [goodKeys_asInput]
    exact hnd
  have hsz := build_sizes codec opts (asInput tree) [] initState (by simpa using hndg)
    (buildInv_init codec opts)
  show ((compressFiles codec opts (asInput tree)).fileMap.foldl
      (fun acc e => jsAddSize acc (some e.2.originalSize)) (.num 0)) = _
  rw [foldOrig_num]
  have hsz2 : ((compressFiles codec opts (asInput tree)).fileMap.map
      (fun e => e.2.originalSize)).sum = (goodSizes (asInput tree)).sum := by
    show ((((asInput tree)).foldl (stepState codec opts) initState).fileMap.map
      (fun e => e.2.originalSize)).sum = _
    rw [hsz]
    simp [initState]
  rw [hsz2, goodSizes_asInput]
  simp

/-- C7 witness: the concrete two-file build records three total original
bytes... (sizes 1 and 1). -/
theorem claim_c7_witness :
    (c7ex.map Prod.fst).Nodup ∧
    c7arch.metadata.totalOriginalSize = .num ((c7ex.map (fun f => f.2.length)).sum : ℕ) :=
  ⟨by decide, claim_c7_size_accounting idCodec defaultOpts true c7ex (by decide) c7arch rfl⟩


theorem decompressGo_ok (codec : Codec) :
    ∀ (m : List (String × FileRecord)) (acc : List (String × Bytes)),
    ((acc.map Prod.fst) ++ (m.map Prod.fst)).Nodup →
    ExtOk codec acc m →
    ∃ out, decompressGo codec m acc = .ok out ∧
      (∀ q, (lookupA acc q).isSome → lookupA out q = lookupA acc q) ∧
      (∀ p rcd, (p, rcd) ∈ m → ∃ bb, lookupA out p = some bb ∧
        hashBuf bb = rcd.originalHash ∧
        (rcd.isDup = false → bb = payloadBytes codec rcd) ∧
        (∀ ref h sz, rcd = .duplicate ref h sz → lookupA out ref = some bb)) := by
  intro m
  induction m with
  | nil =>
    intro acc _ _
    exact ⟨acc, rfl, fun q _ => rfl, fun p rcd hmem => absurd hmem (by simp)⟩
  | cons e m' ih =>
    intro acc hnd hext
    obtain ⟨p, rcd⟩ := e
    have hhead := hext [] p rcd m' rfl
    have hpacc : lookupA acc p = none := by
      rw [lookupA_eq_none_iff]
      intro hc
      rw [List.map_cons] at hnd
      obtain ⟨_, _, hdisj⟩ := List.nodup_append.mp hnd
      exact hdisj hc (List.mem_cons_self _ _)
    have hcont : ∀ bb : Bytes, hashBuf bb = rcd.originalHash →
        ∃ out, decompressGo codec m' (acc ++ [(p, bb)]) = .ok out ∧
          (∀ q, (lookupA (acc ++ [(p, bb)]) q).isSome →
            lookupA out q = lookupA (acc ++ [(p, bb)]) q) ∧
          (∀ p2 rcd2, (p2, rcd2) ∈ m' → ∃ bb2, lookupA out p2 = some bb2 ∧
            hashBuf bb2 = rcd2.originalHash ∧
            (rcd2.isDup = false → bb2 = payloadBytes codec rcd2) ∧
            (∀ ref h sz, rcd2 = .duplicate ref h sz → lookupA out ref = some bb2)) := by
      intro bb hbb
      apply ih (acc ++ [(p, bb)])
      · simp only [List.map_append, List.map_cons] at hnd ⊢
        simpa using hnd
      · intro m1 p2 rcd2 m2 hm'
        have horig := hext ((p, rcd) :: m1) p2 rcd2 m2 (by rw [hm']; rfl)
        refine ⟨horig.1, ?_⟩
        intro ref0 h0 sz0 hdup2
        have htar := horig.2 ref0 h0 sz0 hdup2
        cases htar with
        | inl hacc =>
          obtain ⟨bb0, hl0, hh0⟩ := hacc
          left
          refine ⟨bb0, ?_, hh0⟩
          rw [lookupA_append, hl0]
        | inr hpend =>
          obtain ⟨hnone, rcd3, hl3, hnd3, hh3⟩ := hpend
          by_cases hrp : ref0 = p
          · subst hrp
            rw [lookupA, if_pos rfl] at hl3
            injection hl3 with hl3e
            left
            refine ⟨bb, ?_, ?_⟩
            · rw [lookupA_append, hnone]
              simp [lookupA]
            · rw [hbb, hl3e, hh3]
          · right
            constructor
            · simp only [lookupA_append, hnone]
              rw [lookupA, if_neg (fun hc => hrp hc.symm)]
              rfl
            · refine ⟨rcd3, ?_, hnd3, hh3⟩
              rw [lookupA, if_neg (fun hc => hrp hc.symm)] at hl3
              exact hl3
    cases rcd with
    | duplicate ref h sz =>
      have htar := hhead.2 ref h sz rfl
      rcases htar with ⟨bb, hlacc, hhb⟩ | ⟨_, ⟨rcd3, hl3, _, _⟩⟩
      swap
      · simp [lookupA] at hl3
      obtain ⟨out, hgo, hpres, hmem⟩ := hcont bb hhb
      have haccp : lookupA (acc ++ [(p, bb)]) p = some bb := by
        rw [lookupA_append, hpacc]
        simp [lookupA]
      have haccref : lookupA (acc ++ [(p, bb)]) ref = some bb := by
        rw [lookupA_append, hlacc]
      refine ⟨out, ?_, ?_, ?_⟩
      · show decompressGo codec ((p, .duplicate ref h sz) :: m') acc = .ok out
        simp only [decompressGo, hlacc]
        rw [if_pos (show calculateHash (.buf bb) = h from hhb)]
        exact hgo
      · intro q hq
        have hq2 : (lookupA (acc ++ [(p, bb)]) q).isSome := by
          rw [lookupA_append]
          cases hl : lookupA acc q with
          | some v => simp
          | none => rw [hl] at hq; simp at hq
        rw [hpres q hq2, lookupA_append]
        cases hl : lookupA acc q with
        | some v => simp
        | none => rw [hl] at hq; simp at hq
      · intro p2 rcd2 hmem2
        rcases List.mem_cons.mp hmem2 with he | hm2
        · injection he with he1 he2
          rw [he1, he2]
          refine ⟨bb, ?_, hhb, ?_, ?_⟩
          · rw [hpres p (by rw [haccp]; simp), haccp]
          · intro hfalse
            simp [FileRecord.isDup] at hfalse
          · intro ref0 h0 sz0 hinj
            injection hinj with e1 e2 e3
            rw [← e1]
            rw [hpres ref (by rw [haccref]; simp), haccref]
        · exact hmem p2 rcd2 hm2
    | standard c h1 s1 cs1 =>
      have hpay : hashBuf (codec.decompress c) = h1 := hhead.1 rfl
      obtain ⟨out, hgo, hpres, hmem⟩ := hcont (codec.decompress c) hpay
      have haccp : lookupA (acc ++ [(p, codec.decompress c)]) p = some (codec.decompress c) := by
        rw [lookupA_append, hpacc]
        simp [lookupA]
      refine ⟨out, ?_, ?_, ?_⟩
      · show decompressGo codec ((p, .standard c h1 s1 cs1) :: m') acc = .ok out
        simp only [decompressGo]
        rw [if_pos (show calculateHash (.buf (codec.decompress c)) = h1 from hpay)]
        exact hgo
      · intro q hq
        have hq2 : (lookupA (acc ++ [(p, codec.decompress c)]) q).isSome := by
          rw [lookupA_append]
          cases hl : lookupA acc q with
          | some v => simp
          | none => rw [hl] at hq; simp at hq
        rw [hpres q hq2, lookupA_append]
        cases hl : lookupA acc q with
        | some v => simp
        | none => rw [hl] at hq; simp at hq
      · intro p2 rcd2 hmem2
        rcases List.mem_cons.mp hmem2 with he | hm2
        · injection he with he1 he2
          rw [he1, he2]
          refine ⟨codec.decompress c, ?_, hpay, fun _ => rfl, ?_⟩
          · rw [hpres p (by rw [haccp]; simp), haccp]
          · intro ref0 h0 sz0 hinj
            cases hinj
        · exact hmem p2 rcd2 hm2
    | dictionary c h1 s1 cs1 dict =>
      have hpay : hashBuf ((codec.decompress c).drop ((utf8Encode dict).length + 1)) = h1 :=
        hhead.1 rfl
      obtain ⟨out, hgo, hpres, hmem⟩ :=
        hcont ((codec.decompress c).drop ((utf8Encode dict).length + 1)) hpay
      have haccp : lookupA (acc ++ [(p, (codec.decompress c).drop ((utf8Encode dict).length + 1))]) p
          = some ((codec.decompress c).drop ((utf8Encode dict).length + 1)) := by
        rw [lookupA_append, hpacc]
        simp [lookupA]
      refine ⟨out, ?_, ?_, ?_⟩
      · show decompressGo codec ((p, .dictionary c h1 s1 cs1 dict) :: m') acc = .ok out
        simp only [decompressGo]
        rw [if_pos (show calculateHash
          (.buf ((codec.decompress c).drop ((utf8Encode dict).length + 1))) = h1 from hpay)]
        exact hgo
      · intro q hq
        have hq2 : (lookupA (acc ++ [(p, (codec.decompress c).drop
            ((utf8Encode dict).length + 1))]) q).isSome := by
          rw [lookupA_append]
          cases hl : lookupA acc q with
          | some v => simp
          | none => rw [hl] at hq; simp at hq
        rw [hpres q hq2, lookupA_append]
        cases hl : lookupA acc q with
        | some v => simp
        | none => rw [hl] at hq; simp at hq
      · intro p2 rcd2 hmem2
        rcases List.mem_cons.mp hmem2 with he | hm2
        · injection he with he1 he2
          rw [he1, he2]
          refine ⟨(codec.decompress c).drop ((utf8Encode dict).length + 1), ?_, hpay,
            fun _ => rfl, ?_⟩
          · rw [hpres p (by rw [haccp]; simp), haccp]
          · intro ref0 h0 sz0 hinj
            cases hinj
        · exact hmem p2 rcd2 hm2


theorem hashBuf_encBytes (p : String) (b : Bytes) : hashBuf (encBytes p b) = hashBuf b := by
  unfold encBytes
  by_cases ht : isTextFile p = true
  · rw [if_pos ht]
    show sha256Digest (utf8Encode (utf8Decode (utf8Encode (utf8Decode b))))
      = sha256Digest (utf8Encode (utf8Decode b))
    rw [utf8Encode_decode_idem]
  · rw [if_neg ht]

theorem lookupA_decomp {β : Type} (m1 : List (String × β)) (p : String) (v : β)
    (m2 : List (String × β)) (hnd : ((m1 ++ (p, v) :: m2).map Prod.fst).Nodup) :
    lookupA (m1 ++ (p, v) :: m2) p = some v := by
  rw [lookupA_append]
  have h1 : lookupA m1 p = none := by
    rw [lookupA_eq_none_iff]
    intro hc
    rw [List.map_append, List.map_cons] at hnd
    obtain ⟨_, _, hdisj⟩ := List.nodup_append.mp hnd
    exact hdisj hc (List.mem_cons_self _ _)
  rw [h1, lookupA, if_pos rfl]

theorem validateFilesLoop_ok (am : List (String × FileRecord)) :
    ∀ (files : List (String × Option Bytes)),
    (∀ p b, (p, some b) ∈ files →
      ∃ rcd, lookupA am p = some rcd ∧ rcd.originalHash = hashBuf b) →
    (∀ f ∈ files, f.2 ≠ none) →
    validateFilesLoop am files = .ok () := by
  intro files
  induction files with
  | nil => intro _ _; rfl
  | cons f rest ih =>
    intro hrec hread
    obtain ⟨p, d⟩ := f
    cases d with
    | none => exact absurd rfl (hread (p, none) (List.mem_cons_self _ _))
    | some b =>
      obtain ⟨rcd, hl, hh⟩ := hrec p b (List.mem_cons_self _ _)
      show validateFilesLoop am ((p, some b) :: rest) = .ok ()
      simp only [validateFilesLoop, hl]
      rw [if_pos (show calculateHash (.str (utf8Decode b)) = rcd.originalHash by rw [hh]; rfl)]
      exact ih (fun q bb hm => hrec q bb (List.mem_cons_of_mem _ hm))
        (fun g hm => hread g (List.mem_cons_of_mem _ hm))

/-- On a fully readable tree with distinct paths, `compressDirectory` succeeds
(the post-build validation passes) and yields the built archive. -/
theorem compressDirectory_ok_asInput (codec : Codec) (opts : Opts) (va : Bool)
    (tree : List (String × Bytes)) (hnd : (tree.map Prod.fst).Nodup) :
    compressDirectory codec opts va (asInput tree) =
      .ok ⟨createCompressionMetadata (asInput tree)
            (compressFiles codec opts (asInput tree)).fileMap,
          (compressFiles codec opts (asInput tree)).fileMap⟩ := by
  have hndg : (goodKeys (asInput tree)).Nodup := by
    rw [goodKeys_asInput]; exact hnd
  obtain ⟨hK, _, _, _, _, hR, _⟩ := buildInv_all codec opts (asInput tree) hndg
  simp only [compressDirectory]
  cases va with
  | false => rfl
  | true =>
    have hloop := validateFilesLoop_ok (compressFiles codec opts (asInput tree)).fileMap
      (asInput tree)
      (fun p b hm => by
        obtain ⟨rcd, hl, hh, _⟩ := hR p b hm
        exact ⟨rcd, hl, hh⟩)
      (fun g hm => by
        unfold asInput at hm
        obtain ⟨e, _, he⟩ := List.mem_map.mp hm
        rw [← he]
        simp)
    have hval : validateCompressedArchive
        ⟨createCompressionMetadata (asInput tree)
            (compressFiles codec opts (asInput tree)).fileMap,
          (compressFiles codec opts (asInput tree)).fileMap⟩ (asInput tree) = .ok () := by
      unfold validateCompressedArchive
      rw [if_pos ?hlen]
      case hlen =>
        show (compressFiles codec opts (asInput tree)).fileMap.length = (asInput tree).length
        have hc := congrArg List.length hK
        rw [List.length_map] at hc
        rw [hc, goodKeys_asInput, List.length_map]
        show tree.length = (asInput tree).length
        unfold asInput
        rw [List.length_map]
      rw [hloop]
    rw [if_pos rfl, hval]


/-- With delta compression off, a built file map extracts successfully under a
round-tripping primitive: every entry yields bytes matching its stored hash,
non-duplicates yield exactly their decompressed payload, and a duplicate entry
leaves its reference path mapped to the same bytes. -/
theorem buildExtract (codec : Codec) (hrt : Codec.RoundTrip codec) (lvl : Nat)
    (dd : Bool) (tree : List (String × Bytes)) (hnd : (tree.map Prod.fst).Nodup) :
    ∃ out, decompressGo codec
        (compressFiles codec ⟨lvl, dd, false⟩ (asInput tree)).fileMap [] = .ok out ∧
      ∀ p rcd, (p, rcd) ∈ (compressFiles codec ⟨lvl, dd, false⟩ (asInput tree)).fileMap →
        ∃ bb, lookupA out p = some bb ∧ hashBuf bb = rcd.originalHash ∧
          (rcd.isDup = false → bb = payloadBytes codec rcd) ∧
          (∀ ref h sz, rcd = .duplicate ref h sz → lookupA out ref = some bb) := by
  have hndg : (goodKeys (asInput tree)).Nodup := by
    rw [goodKeys_asInput]; exact hnd
  obtain ⟨hK, _, _, _, hJ3, hR, hRc⟩ :=
    buildInv_all codec ⟨lvl, dd, false⟩ (asInput tree) hndg
  have hndk : ((compressFiles codec ⟨lvl, dd, false⟩ (asInput tree)).fileMap.map
      Prod.fst).Nodup := by
    rw [hK, goodKeys_asInput]; exact hnd
  have hext : ExtOk codec [] (compressFiles codec ⟨lvl, dd, false⟩ (asInput tree)).fileMap := by
    intro m1 p rcd m2 hdec
    have hndk2 : ((m1 ++ (p, rcd) :: m2).map Prod.fst).Nodup := by
      rw [← hdec]; exact hndk
    have hlp : lookupA (compressFiles codec ⟨lvl, dd, false⟩ (asInput tree)).fileMap p
        = some rcd := by
      rw [hdec]; exact lookupA_decomp m1 p rcd m2 hndk2
    have hpk : p ∈ goodKeys (asInput tree) := by
      rw [← hK, hdec]
      simp
    rw [goodKeys_asInput] at hpk
    obtain ⟨e, hme, hfe⟩ := List.mem_map.mp hpk
    obtain ⟨t1, t2, hts⟩ := List.append_of_mem hme
    have hai : asInput tree = asInput t1 ++ (p, some e.2) :: asInput t2 := by
      rw [hts]
      unfold asInput
      rw [List.map_append, List.map_cons, hfe]
    have hrec := hRc rfl (asInput t1) p e.2 (asInput t2) hai
    have hrcd : rcd = recordAt codec ⟨lvl, dd, false⟩ (asInput t1) p e.2 := by
      rw [hlp] at hrec
      injection hrec
    constructor
    · intro hnodup
      rw [hrcd] at hnodup ⊢
      unfold recordAt at hnodup ⊢
      dsimp only at hnodup ⊢
      cases hscr : (if dd = true
          then firstGood (asInput t1) (hashBuf e.2) else none) with
      | some r =>
        rw [hscr] at hnodup
        simp [FileRecord.isDup] at hnodup
      | none =>
        simp only [payloadBytes, FileRecord.originalHash]
        rw [hrt]
        exact hashBuf_encBytes p e.2
    · intro ref h sz hdup
      obtain ⟨rcd2, hl2, hnd2, hh2⟩ := hJ3 m1 p rcd m2 hdec ref h sz hdup
      right
      exact ⟨rfl, rcd2, hl2, hnd2, hh2⟩
  obtain ⟨out, hgo, _, hmem⟩ := decompressGo_ok codec
    (compressFiles codec ⟨lvl, dd, false⟩ (asInput tree)).fileMap []
    (by simpa using hndk) hext
  exact ⟨out, hgo, hmem⟩

theorem filterIdx_nil {β : Type} : ∀ (m : List (String × β)),
    (∀ e ∈ m, isArrayIndex e.1 = false) →
    m.filter (fun e => isArrayIndex e.1) = [] := by
  intro m
  induction m with
  | nil => intro _; rfl
  | cons e rest ih =>
    intro h
    have hr := ih (fun f hf2 => h f (List.mem_cons_of_mem _ hf2))
    simp [List.filter_cons, h e (List.mem_cons_self _ _), hr]

theorem filterNotIdx_self {β : Type} : ∀ (m : List (String × β)),
    (∀ e ∈ m, isArrayIndex e.1 = false) →
    m.filter (fun e => !(isArrayIndex e.1)) = m := by
  intro m
  induction m with
  | nil => intro _; rfl
  | cons e rest ih =>
    intro h
    have hr := ih (fun f hf2 => h f (List.mem_cons_of_mem _ hf2))
    simp [List.filter_cons, h e (List.mem_cons_self _ _), hr]

theorem jsEntries_eq_self {β : Type} (m : List (String × β))
    (h : ∀ e ∈ m, isArrayIndex e.1 = false) : jsEntries m = m := by
  unfold jsEntries
  rw [filterIdx_nil m h, filterNotIdx_self m h]
  rfl

/-- C1 counterexample: for the tree with one text file `a.txt` containing the
single byte 0xFF (not valid UTF-8), with delta off and validation on, the
build succeeds and extraction succeeds, but the extracted bytes are the UTF-8
replacement-character encoding EF BF BD, not the original byte — the file's
bytes are not reproduced, even though the code's lossy `calculateHash` of the
extracted and original bytes coincide. -/
theorem claim_c1_counterexample :
    (compressDirectory idCodec ⟨9, true, false⟩ true (asInput c1bad)).toOption.map
        (fun a => decompressArchive idCodec a) =
      some (.ok [("a.txt", [239, 191, 189])]) ∧
    ([239, 191, 189] : Bytes) ≠ [255] ∧
    calculateHash (.buf [239, 191, 189]) = calculateHash (.buf [255]) :=
  ⟨rfl, by decide, rfl⟩

/-- C1 (corrected): Round-trip up to the code's lossy hash, with exact bytes
only for canonically encoded content.  For every tree with distinct relative
paths none of which is an array-index-like string, with delta off, given a
round-tripping primitive, `compressDirectory` succeeds, `decompressArchive`
succeeds, and every file extracts to bytes whose `calculateHash` (the digest
of the UTF-8 re-encoding of `content.toString()`) equals that of the
original; with deduplication also off, the extracted bytes are exactly
`encBytes` of the original — the original bytes themselves for binary files
and for text files whose bytes are valid UTF-8, the re-encoding of the lossy
decode otherwise. -/
theorem claim_c1_amended_roundtrip (codec : Codec) (hrt : Codec.RoundTrip codec)
    (lvl : Nat) (dd va : Bool) (tree : List (String × Bytes))
    (hnd : (tree.map Prod.fst).Nodup)
    (hidx : ∀ pf ∈ tree, isArrayIndex pf.1 = false) :
    ∃ a extracted,
      compressDirectory codec ⟨lvl, dd, false⟩ va (asInput tree) = .ok a ∧
      decompressArchive codec a = .ok extracted ∧
      ∀ pf ∈ tree, ∃ bb, lookupA extracted pf.1 = some bb ∧
        calculateHash (.buf bb) = calculateHash (.buf pf.2) ∧
        (dd = false → bb = encBytes pf.1 pf.2) := by
  obtain ⟨out, hgo, hmem⟩ := buildExtract codec hrt lvl dd tree hnd
  have hndg : (goodKeys (asInput tree)).Nodup := by
    rw [goodKeys_asInput]; exact hnd
  obtain ⟨hK, _, _, _, _, hR, hRc⟩ :=
    buildInv_all codec ⟨lvl, dd, false⟩ (asInput tree) hndg
  have hje : jsEntries (compressFiles codec ⟨lvl, dd, false⟩ (asInput tree)).fileMap
      = (compressFiles codec ⟨lvl, dd, false⟩ (asInput tree)).fileMap := by
    refine jsEntries_eq_self _ (fun e he => ?_)
    have hm : e.1 ∈ goodKeys (asInput tree) := by
      rw [← hK]
      exact List.mem_map.mpr ⟨e, he, rfl⟩
    rw [goodKeys_asInput] at hm
    obtain ⟨pf, hpf, hq⟩ := List.mem_map.mp hm
    rw [← hq]
    exact hidx pf hpf
  refine ⟨_, out, compressDirectory_ok_asInput codec ⟨lvl, dd, false⟩ va tree hnd, ?_, ?_⟩
  · show decompressGo codec
      (jsEntries (compressFiles codec ⟨lvl, dd, false⟩ (asInput tree)).fileMap) [] = .ok out
    rw [hje]
    exact hgo
  · intro pf hpf
    have hin : (pf.1, some pf.2) ∈ asInput tree := List.mem_map.mpr ⟨pf, hpf, rfl⟩
    obtain ⟨rcd, hl, hh, _⟩ := hR pf.1 pf.2 hin
    obtain ⟨bb, hlo, hhb, hpay, _⟩ := hmem pf.1 rcd (lookupA_mem _ _ _ hl)
    refine ⟨bb, hlo, ?_, ?_⟩
    · show hashBuf bb = hashBuf pf.2
      rw [hhb, hh]
    · intro hdd
      subst hdd
      obtain ⟨t1, t2, hts⟩ := List.append_of_mem hpf
      have hai : asInput tree = asInput t1 ++ (pf.1, some pf.2) :: asInput t2 := by
        rw [hts]
        unfold asInput
        rw [List.map_append, List.map_cons]
      have hrec := hRc rfl (asInput t1) pf.1 pf.2 (asInput t2) hai
      rw [hl] at hrec
      have hrcd : rcd = recordAt codec ⟨lvl, false, false⟩ (asInput t1) pf.1 pf.2 := by
        injection hrec
      have hstd : rcd = .standard (codec.compress lvl (encBytes pf.1 pf.2))
          (hashBuf pf.2) pf.2.length
          (codec.compress lvl (encBytes pf.1 pf.2)).length := by
        rw [hrcd]
        unfold recordAt
        rfl
      have hbb := hpay (by rw [hstd]; rfl)
      rw [hbb, hstd]
      show codec.decompress (codec.compress lvl (encBytes pf.1 pf.2)) = encBytes pf.1 pf.2
      exact hrt lvl _

/-- C1 witness: the two-file tree `c1t` (a text and a binary file with the
same single UTF-8-valid byte), identity codec, level 9, deduplication off,
delta off, validation on; both files extract with matching hashes and exactly
their original bytes. -/
theorem claim_c1_witness :
    (c1t.map Prod.fst).Nodup ∧ (∀ pf ∈ c1t, isArrayIndex pf.1 = false) ∧
    ∃ a extracted,
      compressDirectory idCodec ⟨9, false, false⟩ true (asInput c1t) = .ok a ∧
      decompressArchive idCodec a = .ok extracted ∧
      ∀ pf ∈ c1t, ∃ bb, lookupA extracted pf.1 = some bb ∧
        calculateHash (.buf bb) = calculateHash (.buf pf.2) ∧
        (false = false → bb = encBytes pf.1 pf.2) :=
  ⟨by decide, by decide,
    claim_c1_amended_roundtrip idCodec (fun _ _ => rfl) 9 false true c1t
      (by decide) (by decide)⟩


/-- C3 (corrected): Deduplication correctness, provided delta/text-normalization
is disabled.  With deduplication on and delta off, for every tree with distinct
paths and every file whose raw-content hash is already registered (the dedup
index maps it to path `pg`), the builder stores for that file a `Duplicate`
record referencing `pg` (no compressed payload — the file is not compressed);
the index realizes first-readable-occurrence registration over the whole tree;
and, provided no relative path is an array-index-like string (so the
`Object.entries` extraction order is the insertion order and the duplicate
follows its reference), under a round-tripping primitive the build succeeds
and extraction produces the same bytes at the duplicate path and at the
referenced path. -/
theorem claim_c3_dedup (codec : Codec) (hrt : Codec.RoundTrip codec) (lvl : Nat)
    (va : Bool) (tree : List (String × Bytes)) (hnd : (tree.map Prod.fst).Nodup)
    (hidx : ∀ pf ∈ tree, isArrayIndex pf.1 = false)
    (t1 : List (String × Bytes)) (p2 : String) (b2 : Bytes) (t2 : List (String × Bytes))
    (hts : tree = t1 ++ (p2, b2) :: t2)
    (pg : String) (hg : firstGood (asInput t1) (hashBuf b2) = some pg) :
    lookupA (compressFiles codec ⟨lvl, true, false⟩ (asInput tree)).fileMap p2
      = some (.duplicate pg (hashBuf b2) b2.length) ∧
    lookupA (compressFiles codec ⟨lvl, true, false⟩ (asInput tree)).fileHashes (hashBuf b2)
      = firstGood (asInput tree) (hashBuf b2) ∧
    ∃ a extracted bb,
      compressDirectory codec ⟨lvl, true, false⟩ va (asInput tree) = .ok a ∧
      decompressArchive codec a = .ok extracted ∧
      lookupA extracted p2 = some bb ∧ lookupA extracted pg = some bb := by
  have hndg : (goodKeys (asInput tree)).Nodup := by
    rw [goodKeys_asInput]; exact hnd
  obtain ⟨hK, hDed, _, _, _, _, hRc⟩ :=
    buildInv_all codec ⟨lvl, true, false⟩ (asInput tree) hndg
  have hje : jsEntries (compressFiles codec ⟨lvl, true, false⟩ (asInput tree)).fileMap
      = (compressFiles codec ⟨lvl, true, false⟩ (asInput tree)).fileMap := by
    refine jsEntries_eq_self _ (fun e he => ?_)
    have hm : e.1 ∈ goodKeys (asInput tree) := by
      rw [← hK]
      exact List.mem_map.mpr ⟨e, he, rfl⟩
    rw [goodKeys_asInput] at hm
    obtain ⟨pf, hpf, hq⟩ := List.mem_map.mp hm
    rw [← hq]
    exact hidx pf hpf
  have hai : asInput tree = asInput t1 ++ (p2, some b2) :: asInput t2 := by
    rw [hts]
    unfold asInput
    rw [List.map_append, List.map_cons]
  have hrec := hRc rfl (asInput t1) p2 b2 (asInput t2) hai
  have hdup : lookupA (compressFiles codec ⟨lvl, true, false⟩ (asInput tree)).fileMap p2
      = some (.duplicate pg (hashBuf b2) b2.length) := by
    rw [hrec]
    unfold recordAt
    dsimp only
    rw [if_pos rfl, hg]
  refine ⟨hdup, hDed rfl (hashBuf b2), ?_⟩
  obtain ⟨out, hgo, hmem⟩ := buildExtract codec hrt lvl true tree hnd
  obtain ⟨bb, hlo, _, _, href⟩ := hmem p2 (.duplicate pg (hashBuf b2) b2.length)
    (lookupA_mem _ _ _ hdup)
  have hga : decompressGo codec
      (jsEntries (compressFiles codec ⟨lvl, true, false⟩ (asInput tree)).fileMap) []
      = .ok out := by
    rw [hje]
    exact hgo
  exact ⟨_, out, bb, compressDirectory_ok_asInput codec ⟨lvl, true, false⟩ va tree hnd,
    hga, hlo, href pg (hashBuf b2) b2.length rfl⟩

/-- C3 witness: the tree `c3t` of two byte-identical binary files, identity
codec, level 9, validation on; the second file gets a duplicate record
referencing the first, the index maps the shared hash to the first path, and
extraction yields the same bytes at both paths. -/
theorem claim_c3_witness :
    (c3t.map Prod.fst).Nodup ∧ (∀ pf ∈ c3t, isArrayIndex pf.1 = false) ∧
    firstGood (asInput [("a.bin", [0])]) (hashBuf ([0] : Bytes)) = some "a.bin" ∧
    (lookupA (compressFiles idCodec ⟨9, true, false⟩ (asInput c3t)).fileMap "b.bin"
        = some (.duplicate "a.bin" (hashBuf ([0] : Bytes)) ([0] : Bytes).length) ∧
      lookupA (compressFiles idCodec ⟨9, true, false⟩ (asInput c3t)).fileHashes
          (hashBuf ([0] : Bytes)) = firstGood (asInput c3t) (hashBuf ([0] : Bytes)) ∧
      ∃ a extracted bb,
        compressDirectory idCodec ⟨9, true, false⟩ true (asInput c3t) = .ok a ∧
        decompressArchive idCodec a = .ok extracted ∧
        lookupA extracted "b.bin" = some bb ∧ lookupA extracted "a.bin" = some bb) :=
  ⟨by decide, by decide, by decide,
    claim_c3_dedup idCodec (fun _ _ => rfl) 9 true c3t (by decide) (by decide)
      [("a.bin", [0])] "b.bin" [0] [] rfl "a.bin" (by decide)⟩


/-- C8: Dictionary optimization is best-effort.  For every text file processed
with delta compression on (any deduplication setting, on a dedup miss), the
dictionary attempt never aborts the file: a record is always chosen and stored
in the file map, with the attempt's result state paired with the self-check of
that record.  When the file's extension group (after pushing this file) has
fewer than 3 members the plain Standard record is used; with 3 or more members
a Dictionary record is chosen exactly when its compressed size is strictly
smaller than the Standard result, the Standard record otherwise. -/
theorem claim_c8_dictionary_best_effort (codec : Codec) (lvl : Nat) (dd : Bool)
    (p : String) (content : Bytes) (st : BState)
    (htext : isTextFile p = true)
    (hmiss : (if dd then lookupA st.fileHashes (calculateHash (.buf content)) else none)
      = none)
    (dtc : JsStr) (hdtc : dtc = applyTextOptimizations (utf8Decode content))
    (compressed : Bytes) (hcmp : compressed = codec.compress lvl (utf8Encode dtc))
    (group : List (String × JsStr))
    (hgrp : group = ((lookupA st.fileGroups (extname p)).getD []) ++ [(p, dtc)]) :
    ∃ rcd st2,
      compressFile codec ⟨lvl, dd, true⟩ p (some content) st
        = (st2, validateFileCompression codec rcd content) ∧
      lookupA st2.fileMap p = some rcd ∧
      (group.length < 3 →
        rcd = .standard compressed (calculateHash (.buf content)) content.length
          compressed.length) ∧
      (∀ bc dict, 3 ≤ group.length →
        dict = createDictionary (group.map Prod.snd) →
        bc = codec.compress lvl (utf8Encode (dict ++ 10 :: dtc)) →
        (bc.length < compressed.length →
          rcd = .dictionary bc (calculateHash (.buf content)) content.length bc.length dict) ∧
        (compressed.length ≤ bc.length →
          rcd = .standard compressed (calculateHash (.buf content)) content.length
            compressed.length)) := by
  subst hdtc
  subst hcmp
  subst hgrp
  simp only [compressFile, tryDictionaryCompression]
  rw [hmiss]
  dsimp only
  rw [if_pos htext]
  simp only [if_true]
  by_cases h3 : 3 ≤ ((lookupA st.fileGroups (extname p)).getD []
      ++ [(p, applyTextOptimizations (utf8Decode content))]).length
  · rw [if_pos h3]
    dsimp only
    by_cases hlt : (codec.compress lvl (utf8Encode
        (createDictionary (List.map Prod.snd ((lookupA st.fileGroups (extname p)).getD []
          ++ [(p, applyTextOptimizations (utf8Decode content))]))
        ++ 10 :: applyTextOptimizations (utf8Decode content)))).length
        < (codec.compress lvl (utf8Encode (applyTextOptimizations (utf8Decode content)))).length
    · rw [if_pos hlt]
      refine ⟨_, _, rfl, ?_, ?_, ?_⟩
      · rw [lookupA_mapSet, if_pos rfl]
      · intro hc
        exact absurd h3 (by omega)
      · intro bc dict h3x hdict hbc
        subst hdict
        subst hbc
        exact ⟨fun _ => rfl, fun hge => absurd hlt (by omega)⟩
    · rw [if_neg hlt]
      refine ⟨_, _, rfl, ?_, ?_, ?_⟩
      · rw [lookupA_mapSet, if_pos rfl]
      · intro hc
        exact absurd h3 (by omega)
      · intro bc dict h3x hdict hbc
        subst hdict
        subst hbc
        exact ⟨fun hl => absurd hl hlt, fun _ => rfl⟩
  · rw [if_neg h3]
    dsimp only
    refine ⟨_, _, rfl, ?_, ?_, ?_⟩
    · rw [lookupA_mapSet, if_pos rfl]
    · intro _
      rfl
    · intro bc dict h3x _ _
      exact absurd h3x h3

/-- C8 witness: a one-byte `.js` text file compressed into a fresh build state
with delta on and deduplication off under the identity codec; its extension
group has a single member, so the attempt degrades to the plain standard
record, which is stored. -/
theorem claim_c8_witness :
    isTextFile "a.js" = true ∧
    (if false then lookupA initState.fileHashes (calculateHash (.buf c8content))
      else none) = none ∧
    ∃ rcd st2,
      compressFile idCodec ⟨9, false, true⟩ "a.js" (some c8content) initState
        = (st2, validateFileCompression idCodec rcd c8content) ∧
      lookupA st2.fileMap "a.js" = some rcd ∧
      (c8grp.length < 3 →
        rcd = .standard c8cmp (calculateHash (.buf c8content)) c8content.length
          c8cmp.length) ∧
      (∀ bc dict, 3 ≤ c8grp.length →
        dict = createDictionary (c8grp.map Prod.snd) →
        bc = idCodec.compress 9 (utf8Encode (dict ++ 10 :: c8dtc)) →
        (bc.length < c8cmp.length →
          rcd = .dictionary bc (calculateHash (.buf c8content)) c8content.length
            bc.length dict) ∧
        (c8cmp.length ≤ bc.length →
          rcd = .standard c8cmp (calculateHash (.buf c8content)) c8content.length
            c8cmp.length)) :=
  ⟨by decide, rfl,
    claim_c8_dictionary_best_effort idCodec 9 false "a.js" c8content initState
      (by decide) rfl c8dtc rfl c8cmp rfl c8grp rfl⟩

end BBC
